import Mathlib

/-!
Verification development for the SCE (Sound-Change Engine) core: a shallow
embedding of `src/patterns.py`, `src/rules.py`, `src/words.py` and
`src/cats.py`, followed by theorems settling the specification claims.

Modelling conventions:
* A `Word` is its list of phones (`List String`); the grapheme inventory and
  separator play no role in matching or rule application over phones.
* A category is its element list (`List String`); the optional name is only
  used for display in the source.
* Python exceptions are modelled by `Except` with explicit error values.
  `MErr` covers exceptions arising inside the pattern matcher
  (`MatchFailed`, plus `TypeError` from arity-mismatched `Element.match`
  calls, `IndexError` from out-of-range list indexing, and `RecursionError`
  for exhausted recursion depth).  `RErr` extends this with the
  rule-layer exceptions of `rules.py`.
* The matcher's recursion is fuel-indexed: every step of the mutual
  recursion consumes one unit of fuel, and exhaustion yields
  `MErr.recursionErr`, mirroring CPython's bounded recursion depth
  (`RecursionError`).  No claim depends on the exact depth bound.
* The pseudo-random draw of `randint(1, 100)` is modelled by an oracle
  `draws : Nat → Nat` together with a draw counter; the value used is
  `draws k % 100 + 1`, which ranges over `[1, 100]` exactly like the
  source's `randint(1, 100)`.
-/

deriving instance DecidableEq for Except

namespace SCE

/-- A word is its phone list (`Word.phones` in `words.py`). -/
abbrev Word := List String

/-- The category-index map `catixes : dict[int, int]`, as an association
list with insertion at the tail, mirroring `catixes | {sub: ix}` which in
the source is only ever applied when `sub` is absent. -/
abbrev Cx := List (Nat × Nat)

/-- First-match lookup, the Python `catixes[sub]` / `sub in catixes`. -/
def cxLookup : Cx → Nat → Option Nat
  | [], _ => none
  | (k, v) :: r, s => if k = s then some v else cxLookup r s

/-- A Python `slice(start, stop)` as produced by `Match` in `patterns.py`. -/
structure Slice where
  start : Int
  stop : Int
deriving DecidableEq, Repr

/-- The anchor of a match: exactly one of `start=` and `stop=` is given
(`patterns.py` raises `TypeError` otherwise; the claims only concern the
one-anchor case, which this type makes intrinsic). -/
inductive Anchor where
  | fromStart (i : Int)
  | fromStop (j : Int)
deriving DecidableEq, Repr

/-- Exceptions that can arise inside the pattern matcher. -/
inductive MErr where
  | matchFailed
  | typeErr
  | indexErr
  | recursionErr
deriving DecidableEq, Repr

/-- Pattern elements (`patterns.py`).  Sub-patterns are embedded as plain
element lists. -/
inductive Elem where
  | grapheme (g : String)
  | ditto
  | category (cat : List String) (subscript : Option Nat)
  | wildcard (greedy : Bool) (extended : Bool)
  | repetition (pattern : List Elem) (number : Nat)
  | wildcardRep (pattern : List Elem) (greedy : Bool)
  | optional (pattern : List Elem) (greedy : Bool)
  | sylBreak
  | comparison (operation : String) (value : Int) (pattern : List Elem)
  | targetRef (direction : Int)

/-- `hasattr(element, 'match_pattern')`: true exactly for the classes that
define `match_pattern` (`Wildcard`, `Repetition`, `WildcardRepetition`,
`Optional`). -/
def Elem.hasMatchPattern : Elem → Bool
  | .wildcard _ _ | .repetition _ _ | .wildcardRep _ _ | .optional _ _ => true
  | _ => false

/-- The `greedy` field of branching elements (unused for the others). -/
def Elem.isGreedy : Elem → Bool
  | .wildcard g _ => g
  | .wildcardRep _ g => g
  | .optional _ g => g
  | _ => true

/-- `advance(word, length, start, stop)` from `patterns.py`: bounds-checked
anchor advancement; failure raises `MatchFailed`. -/
def advance (w : Word) (length : Nat) : Anchor → Except MErr Anchor
  | .fromStart i =>
      if 0 ≤ i ∧ i ≤ (w.length : Int) - length then .ok (.fromStart (i + length))
      else .error .matchFailed
  | .fromStop j =>
      if (length : Int) ≤ j ∧ j ≤ (w.length : Int) then .ok (.fromStop (j - length))
      else .error .matchFailed

/-- `get_index(word, start, stop)` from `patterns.py`: the word index a
character element inspects; failure raises `MatchFailed`. -/
def getIndex (w : Word) : Anchor → Except MErr Nat
  | .fromStart i =>
      if 0 ≤ i ∧ i < (w.length : Int) then .ok i.toNat else .error .matchFailed
  | .fromStop j =>
      if 0 ≤ j - 1 ∧ j - 1 < (w.length : Int) then .ok (j - 1).toNat
      else .error .matchFailed

/-- The call shapes of the mutually recursive matcher of `patterns.py`.
The mutual recursion is folded into the single fuel-indexed step function
`mrun` so that evaluation is kernel-reducible; the named wrappers below
(`patMatchAux`, `patLoopF`, … ) restore the source's function boundaries. -/
inductive MCall where
  | aux (els : List Elem) (a : Anchor) (m : Cx)
  | loopF (els : List Elem) (i : Int) (len : Nat) (m : Cx)
  | loopR (revEls : List Elem) (j : Int) (len : Nat) (m : Cx)
  | elemM (e : Elem) (a : Anchor) (m : Cx)
  | mp (e : Elem) (rest : List Elem) (a : Anchor) (m : Cx)
  | branch (e : Elem) (rest : List Elem) (a : Anchor) (m : Cx)
  | mbr (e : Elem) (rest : List Elem) (a : Anchor) (m : Cx)
  | rep (p : List Elem) (k : Nat) (rest : List Elem) (a : Anchor) (len : Nat) (m : Cx)

/-- One fuel layer of the matcher.  The cases are, in order:

* `aux` — `Pattern._match`: dispatch on the anchor; forward anchoring walks
  the elements left-to-right (`loopF`), backward anchoring walks them
  right-to-left (`loopR`, over the reversed element list, handing the
  re-reversed prefix to branching elements as the rest pattern);
* `loopF`/`loopR` — the element loop of `Pattern._match`: advance by the
  accumulated length, then either hand over to `match_pattern` for a
  branching element (terminating the loop) or match a single element and
  continue;
* `elemM` — `Element.match`: character elements check one phone
  (`CharacterMixin`), `Category.match` implements subscript binding,
  sub-pattern elements defer to the inner pattern (`SubpatternMixin`), and
  `SylBreak`/`Comparison`/`TargetRef` hit the base `Element.match`, which
  the source calls with one positional argument too many — `TypeError`;
* `mp` — `match_pattern`: `Wildcard`/`WildcardRepetition` first consume one
  unit and branch at the advanced anchor (`WildcardMixin`); `Optional`
  branches in place; `Repetition` loops deterministically (`rep`);
* `branch` — `BranchMixin.match_pattern`: greedy tries the branch first and
  falls back to the rest pattern only on `MatchFailed`; lazy tries the rest
  first and falls back on any exception (the source's bare `except:`);
* `mbr` — `_match_branch`: recurse into `match_pattern` for wildcards, or
  match inner-then-rest for `Optional`;
* `rep` — the loop of `Repetition.match_pattern`. -/
def mrun (w : Word) : Nat → MCall → Except MErr (Nat × Cx)
  | 0, _ => .error .recursionErr
  | f + 1, c =>
      match c with
      | .aux els a m =>
          match a with
          | .fromStart i => mrun w f (.loopF els i 0 m)
          | .fromStop j => mrun w f (.loopR els.reverse j 0 m)
      | .loopF els i len m =>
          match els with
          | [] => .ok (len, m)
          | e :: rest =>
              match advance w len (.fromStart i) with
              | .error er => .error er
              | .ok a' =>
                  if e.hasMatchPattern then
                    match mrun w f (.mp e rest a' m) with
                    | .error er => .error er
                    | .ok (l2, m') => .ok (len + l2, m')
                  else
                    match mrun w f (.elemM e a' m) with
                    | .error er => .error er
                    | .ok (l1, m') => mrun w f (.loopF rest i (len + l1) m')
      | .loopR revEls j len m =>
          match revEls with
          | [] => .ok (len, m)
          | e :: revRest =>
              match advance w len (.fromStop j) with
              | .error er => .error er
              | .ok a' =>
                  if e.hasMatchPattern then
                    match mrun w f (.mp e revRest.reverse a' m) with
                    | .error er => .error er
                    | .ok (l2, m') => .ok (len + l2, m')
                  else
                    match mrun w f (.elemM e a' m) with
                    | .error er => .error er
                    | .ok (l1, m') => mrun w f (.loopR revRest j (len + l1) m')
      | .elemM e a m =>
          match e with
          | .grapheme g =>
              match getIndex w a with
              | .error er => .error er
              | .ok idx =>
                  if w.getD idx "" = g then .ok (1, m) else .error .matchFailed
          | .ditto =>
              match getIndex w a with
              | .error er => .error er
              | .ok idx =>
                  if idx ≠ 0 ∧ w.getD idx "" = w.getD (idx - 1) "" then .ok (1, m)
                  else .error .matchFailed
          | .category cat sub =>
              match getIndex w a with
              | .error er => .error er
              | .ok idx =>
                  match sub with
                  | none =>
                      if w.getD idx "" ∈ cat then .ok (1, m) else .error .matchFailed
                  | some sb =>
                      match cxLookup m sb with
                      | some k =>
                          match cat.get? k with
                          | none => .error .indexErr
                          | some p =>
                              if w.getD idx "" = p then .ok (1, m)
                              else .error .matchFailed
                      | none =>
                          if w.getD idx "" ∈ cat then
                            .ok (1, m ++ [(sb, cat.indexOf (w.getD idx ""))])
                          else .error .matchFailed
          | .wildcard _ ext =>
              match getIndex w a with
              | .error er => .error er
              | .ok idx =>
                  if ext = true ∨ w.getD idx "" ≠ "#" then .ok (1, m)
                  else .error .matchFailed
          | .repetition p _ => mrun w f (.aux p a m)
          | .wildcardRep p _ => mrun w f (.aux p a m)
          | .optional p _ => mrun w f (.aux p a m)
          | .sylBreak => .error .typeErr
          | .comparison _ _ _ => .error .typeErr
          | .targetRef _ => .error .typeErr
      | .mp e rest a m =>
          match e with
          | .wildcard _ _ =>
              match mrun w f (.elemM e a m) with
              | .error er => .error er
              | .ok (l1, m1) =>
                  match advance w l1 a with
                  | .error er => .error er
                  | .ok a' =>
                      match mrun w f (.branch e rest a' m1) with
                      | .error er => .error er
                      | .ok (l2, m2) => .ok (l1 + l2, m2)
          | .wildcardRep _ _ =>
              match mrun w f (.elemM e a m) with
              | .error er => .error er
              | .ok (l1, m1) =>
                  match advance w l1 a with
                  | .error er => .error er
                  | .ok a' =>
                      match mrun w f (.branch e rest a' m1) with
                      | .error er => .error er
                      | .ok (l2, m2) => .ok (l1 + l2, m2)
          | .optional _ _ => mrun w f (.branch e rest a m)
          | .repetition p n => mrun w f (.rep p n rest a 0 m)
          | _ => .error .typeErr
      | .branch e rest a m =>
          if e.isGreedy then
            match mrun w f (.mbr e rest a m) with
            | .ok r => .ok r
            | .error .matchFailed => mrun w f (.aux rest a m)
            | .error er => .error er
          else
            match mrun w f (.aux rest a m) with
            | .ok r => .ok r
            | .error _ => mrun w f (.mbr e rest a m)
      | .mbr e rest a m =>
          match e with
          | .wildcard _ _ => mrun w f (.mp e rest a m)
          | .wildcardRep _ _ => mrun w f (.mp e rest a m)
          | .optional p _ =>
              match mrun w f (.aux p a m) with
              | .error er => .error er
              | .ok (l1, m1) =>
                  match advance w l1 a with
                  | .error er => .error er
                  | .ok a' =>
                      match mrun w f (.aux rest a' m1) with
                      | .error er => .error er
                      | .ok (l2, m2) => .ok (l1 + l2, m2)
          | _ => .error .typeErr
      | .rep p k rest a len m =>
          match k with
          | 0 =>
              match advance w len a with
              | .error er => .error er
              | .ok a' =>
                  match mrun w f (.aux rest a' m) with
                  | .error er => .error er
                  | .ok (lr, m') => .ok (len + lr, m')
          | k + 1 =>
              match advance w len a with
              | .error er => .error er
              | .ok a' =>
                  match mrun w f (.aux p a' m) with
                  | .error er => .error er
                  | .ok (li, m') => mrun w f (.rep p k rest a (len + li) m')

/-- `Pattern._match`. -/
def patMatchAux (f : Nat) (els : List Elem) (w : Word) (a : Anchor) (m : Cx) :
    Except MErr (Nat × Cx) :=
  mrun w f (.aux els a m)

/-- The forward element loop of `Pattern._match`. -/
def patLoopF (f : Nat) (els : List Elem) (w : Word) (i : Int) (len : Nat) (m : Cx) :
    Except MErr (Nat × Cx) :=
  mrun w f (.loopF els i len m)

/-- The backward element loop of `Pattern._match` (over the reversed list). -/
def patLoopR (f : Nat) (revEls : List Elem) (w : Word) (j : Int) (len : Nat) (m : Cx) :
    Except MErr (Nat × Cx) :=
  mrun w f (.loopR revEls j len m)

/-- `Element.match`. -/
def elemMatch (f : Nat) (e : Elem) (w : Word) (a : Anchor) (m : Cx) :
    Except MErr (Nat × Cx) :=
  mrun w f (.elemM e a m)

/-- `match_pattern` of a branching element. -/
def matchPattern (f : Nat) (e : Elem) (rest : List Elem) (w : Word) (a : Anchor)
    (m : Cx) : Except MErr (Nat × Cx) :=
  mrun w f (.mp e rest a m)

/-- `BranchMixin.match_pattern`. -/
def branchMix (f : Nat) (e : Elem) (rest : List Elem) (w : Word) (a : Anchor)
    (m : Cx) : Except MErr (Nat × Cx) :=
  mrun w f (.branch e rest a m)

/-- `_match_branch`. -/
def matchBranch (f : Nat) (e : Elem) (rest : List Elem) (w : Word) (a : Anchor)
    (m : Cx) : Except MErr (Nat × Cx) :=
  mrun w f (.mbr e rest a m)

/-- The loop of `Repetition.match_pattern`. -/
def repLoop (f : Nat) (p : List Elem) (k : Nat) (rest : List Elem) (w : Word)
    (a : Anchor) (len : Nat) (m : Cx) : Except MErr (Nat × Cx) :=
  mrun w f (.rep p k rest a len m)

/-- `Pattern.match`, the public matcher surface: on success, wrap the
matched length into a `slice`; `MatchFailed` (and only `MatchFailed`) is
caught and turned into `(None, {})`. -/
def patternMatch (f : Nat) (els : List Elem) (w : Word) (a : Anchor) (m : Cx) :
    Except MErr (Option Slice × Cx) :=
  match patMatchAux f els w a m with
  | .ok (l, m') =>
      match a with
      | .fromStart i => .ok (some ⟨i, i + l⟩, m')
      | .fromStop j => .ok (some ⟨j - l, j⟩, m')
  | .error .matchFailed => .ok (none, [])
  | .error er => .error er

/-! ## The rule layer (`rules.py`) -/

/-- Exceptions of the rule layer: matcher exceptions lifted by `merr`, the
`RuleDidNotApply` subtypes, plus `ValueError`, `ZeroDivisionError` and
`AttributeError` from plain Python evaluation.  (`BlockStopped` is modelled
as a stop signal inside `blockOuter`, because the source catches it at the
block boundary while the current word is a mutated local.) -/
inductive RErr where
  | merr (e : MErr)
  | noTargetsFound
  | noTargetsValidated
  | ruleRandomlySkipped
  | valueErr
  | zeroDivErr
  | attributeErr
deriving DecidableEq, Repr

/-- `isinstance(e, RuleDidNotApply)` for the exceptions a rule application
can raise. -/
def RErr.isDidNotApply : RErr → Bool
  | .noTargetsFound | .noTargetsValidated | .ruleRandomlySkipped => true
  | _ => false

/-- Lift a matcher result into the rule layer. -/
def liftME : Except MErr α → Except RErr α
  | .ok a => .ok a
  | .error e => .error (.merr e)

/-- Python list slicing `l[a:b]` with integer endpoints (negative indices
count from the end; everything is clipped into range). -/
def pySlice (l : List String) (s : Slice) : List String :=
  let n : Int := l.length
  let norm : Int → Nat := fun x => (if x < 0 then max 0 (n + x) else min x n).toNat
  (l.drop (norm s.start)).take (norm s.stop - norm s.start)

/-- Python list indexing `l[i]` (negative indices wrap; out-of-range raises
`IndexError`). -/
def pyIndex (l : List String) (i : Int) : Except RErr String :=
  if 0 ≤ i ∧ i < (l.length : Int) then .ok (l.getD i.toNat "")
  else if -(l.length : Int) ≤ i ∧ i < 0 then .ok (l.getD (i + l.length).toNat "")
  else .error (.merr .indexErr)

/-- `Pattern.resolve`: substitute `TargetRef` elements by the target's
phones, in order for direction `+1` and reversed for direction `-1`.  The
source materialises `reversed(_target)` once as an iterator, so only the
first reverse reference at a given nesting level receives the phones; the
`used` flag models the exhausted iterator.  Sub-patterns are resolved by a
fresh call (fresh iterator).  The recursion into sub-patterns is
fuel-indexed like the matcher (for kernel reducibility); exhausted fuel
returns the empty pattern, a case no claim depends on. -/
def resolveAux : Nat → List Elem → List String → Bool → List Elem
  | 0, _, _, _ => []
  | _ + 1, [], _, _ => []
  | f + 1, .targetRef d :: rest, t, used =>
      if d = 1 then t.map .grapheme ++ resolveAux f rest t used
      else if used then resolveAux f rest t true
      else (t.reverse.map .grapheme) ++ resolveAux f rest t true
  | f + 1, .repetition p n :: rest, t, used =>
      .repetition (resolveAux f p t false) n :: resolveAux f rest t used
  | f + 1, .wildcardRep p g :: rest, t, used =>
      .wildcardRep (resolveAux f p t false) g :: resolveAux f rest t used
  | f + 1, .optional p g :: rest, t, used =>
      .optional (resolveAux f p t false) g :: resolveAux f rest t used
  | f + 1, e :: rest, t, used => e :: resolveAux f rest t used

/-- `Pattern.resolve(target)`. -/
def resolvePattern (f : Nat) (els : List Elem) (target : List String) : List Elem :=
  resolveAux f els target false

/-- Call shapes of `Pattern.as_phones` (the rendering loop and the
`Repetition` expansion loop), folded into one fuel-indexed function for
kernel reducibility. -/
inductive APCall where
  | loop (els : List Elem) (last : String) (acc : List String)
  | rep (p : List Elem) (n : Nat) (last : String) (acc : List String)

/-- One fuel layer of `Pattern.as_phones`: `Grapheme` appends its phone;
`Ditto` repeats the previous output phone (or the seed `last`); a
subscripted category must be bound in `catixes` (else `ValueError`, and an
out-of-range binding raises `IndexError`); an unsubscripted category also
raises `ValueError` (`None` is never a key); `Repetition` renders the inner
pattern `n` times, each seeded with the current last output phone; all
other variants raise `TypeError`. -/
def arun (cx : Cx) : Nat → APCall → Except RErr (List String)
  | 0, _ => .error (.merr .recursionErr)
  | f + 1, c =>
      match c with
      | .loop els last acc =>
          match els with
          | [] => .ok acc
          | .grapheme g :: rest => arun cx f (.loop rest last (acc ++ [g]))
          | .ditto :: rest => arun cx f (.loop rest last (acc ++ [acc.getLastD last]))
          | .category cat sub :: rest =>
              match sub with
              | none => .error .valueErr
              | some sb =>
                  match cxLookup cx sb with
                  | none => .error .valueErr
                  | some k =>
                      match cat.get? k with
                      | none => .error (.merr .indexErr)
                      | some p => arun cx f (.loop rest last (acc ++ [p]))
          | .repetition p n :: rest =>
              match arun cx f (.rep p n last acc) with
              | .error er => .error er
              | .ok acc' => arun cx f (.loop rest last acc')
          | _ :: _ => .error (.merr .typeErr)
      | .rep p n last acc =>
          match n with
          | 0 => .ok acc
          | n + 1 =>
              match arun cx f (.loop p (acc.getLastD last) []) with
              | .error er => .error er
              | .ok inner => arun cx f (.rep p n last (acc ++ inner))

/-- `Pattern.as_phones(last_phone, catixes)`. -/
def asPhones (f : Nat) (els : List Elem) (last : String) (cx : Cx) :
    Except RErr (List String) :=
  arun cx f (.loop els last [])

/-- Environments (`rules.py`): local `left _ right`, adjacency `~pattern`,
and global `pattern@indices`. -/
inductive Env where
  | localEnv (left : List Elem) (right : List Elem)
  | adjacency (pattern : List Elem)
  | globalEnv (pattern : List Elem) (indices : List Int)

/-- Short-circuiting `any` over a monadic predicate, like Python's `any`
over a generator. -/
def anyME (p : α → Except RErr Bool) : List α → Except RErr Bool
  | [] => .ok false
  | x :: xs =>
      match p x with
      | .error er => .error er
      | .ok true => .ok true
      | .ok false => anyME p xs

/-- Short-circuiting `all` over a monadic predicate. -/
def allME (p : α → Except RErr Bool) : List α → Except RErr Bool
  | [] => .ok true
  | x :: xs =>
      match p x with
      | .error er => .error er
      | .ok false => .ok false
      | .ok true => allME p xs

/-- `Environment.match(word, match, catixes)` for each variant.  Local
environments thread the catixes returned by the left pattern (an empty map
when the left match failed) into the right pattern.  Adjacency and global
environments test whether the resolved pattern matches at the relevant
anchors, short-circuiting like the source's `or` / `any`. -/
def envMatch (f : Nat) (env : Env) (w : Word) (s : Slice) (cx : Cx) : Except RErr Bool :=
  match env with
  | .localEnv left right =>
      let target := pySlice w s
      match liftME (patternMatch f (resolvePattern f left target) w (.fromStop s.start) cx) with
      | .error er => .error er
      | .ok (lm, cx') =>
          match liftME (patternMatch f (resolvePattern f right target) w (.fromStart s.stop) cx') with
          | .error er => .error er
          | .ok (rm, _) => .ok (lm.isSome && rm.isSome)
  | .adjacency p =>
      let pat := resolvePattern f p (pySlice w s)
      match liftME (patternMatch f pat w (.fromStop s.start) cx) with
      | .error er => .error er
      | .ok (m1, _) =>
          if m1.isSome then .ok true
          else
            match liftME (patternMatch f pat w (.fromStart s.stop) cx) with
            | .error er => .error er
            | .ok (m2, _) => .ok m2.isSome
  | .globalEnv p indices =>
      let pat := resolvePattern f p (pySlice w s)
      let idxs : List Int :=
        if indices.isEmpty then (List.range w.length).map (fun n : Nat => (n : Int))
        else indices.map (fun ix => if ix < 0 then ix + w.length else ix)
      anyME (fun i =>
        match liftME (patternMatch f pat w (.fromStart i) cx) with
        | .error er => .error er
        | .ok (o, _) => .ok o.isSome) idxs

/-- Collect the indices `0 .. n` (inclusive) that satisfy a monadic
predicate, in order — the `for index in range(len(word) + 1)` loops of the
`match_all` methods. -/
def collectIdx (p : Int → Except RErr Bool) : Nat → Nat → Except RErr (List Int)
  | _, 0 => .ok []
  | i, n + 1 =>
      match p i with
      | .error er => .error er
      | .ok b =>
          match collectIdx p (i + 1) n with
          | .error er => .error er
          | .ok rest => .ok (if b then (i : Int) :: rest else rest)

/-- `Environment.match_all(word, match, catixes)`.  For a global
environment the pattern is ignored (the source comments `# Ignoring
self.pattern`): with no indices the result is `list(range(1, len(word)))`,
otherwise the listed indices with negatives offset by the word length. -/
def envMatchAll (f : Nat) (env : Env) (w : Word) (s : Slice) (cx : Cx) :
    Except RErr (List Int) :=
  match env with
  | .localEnv left right =>
      let target := pySlice w s
      let l := resolvePattern f left target
      let r := resolvePattern f right target
      collectIdx (fun i =>
        match liftME (patternMatch f l w (.fromStop i) cx) with
        | .error er => .error er
        | .ok (lm, cxl) =>
            match liftME (patternMatch f r w (.fromStart i) cxl) with
            | .error er => .error er
            | .ok (rm, _) => .ok (lm.isSome && rm.isSome)) 0 (w.length + 1)
  | .adjacency p =>
      let pat := resolvePattern f p (pySlice w s)
      collectIdx (fun i =>
        match liftME (patternMatch f pat w (.fromStop i) cx) with
        | .error er => .error er
        | .ok (m1, _) =>
            if m1.isSome then .ok true
            else
              match liftME (patternMatch f pat w (.fromStart i) cx) with
              | .error er => .error er
              | .ok (m2, _) => .ok m2.isSome) 0 (w.length + 1)
  | .globalEnv _ indices =>
      if indices.isEmpty then
        .ok ((List.range' 1 (w.length - 1)).map (fun n : Nat => (n : Int)))
      else
        .ok (indices.map (fun ix => if ix < 0 then ix + w.length else ix))

/-- `match_environments`: disjunction over groups, conjunction within a
group, short-circuiting in evaluation order. -/
def matchEnvironments (f : Nat) (groups : List (List Env)) (w : Word) (s : Slice)
    (cx : Cx) : Except RErr Bool :=
  anyME (fun grp => allME (fun env => envMatch f env w s cx) grp) groups

/-- Predicates: substitution, copy and move (`rules.py`; `Insert` is the
abstract base whose edit semantics `Copy` shares verbatim). -/
inductive Pred where
  | subst (replacements : List (List Elem)) (conditions exceptions : List (List Env))
  | copy (destinations conditions exceptions : List (List Env))
  | move (destinations conditions exceptions : List (List Env))

/-- The condition groups of a predicate. -/
def Pred.conditions : Pred → List (List Env)
  | .subst _ c _ => c
  | .copy _ c _ => c
  | .move _ c _ => c

/-- The exception groups of a predicate. -/
def Pred.exceptions : Pred → List (List Env)
  | .subst _ _ e => e
  | .copy _ _ e => e
  | .move _ _ e => e

/-- `Predicate.match`: an exception group match rejects; otherwise accept
iff some condition group matches or there are no condition groups. -/
def predMatch (f : Nat) (p : Pred) (w : Word) (s : Slice) (cx : Cx) : Except RErr Bool :=
  match matchEnvironments f p.exceptions w s cx with
  | .error er => .error er
  | .ok true => .ok false
  | .ok false =>
      match matchEnvironments f p.conditions w s cx with
      | .error er => .error er
      | .ok c => .ok (c || p.conditions.isEmpty)

/-- `Predicate.verify(old_length, new_length)`: always true except for
`Move`, which requires `new_length > old_length + 1`. -/
def predVerify : Pred → Nat → Nat → Bool
  | .move _ _ _, old, new => old + 1 < new
  | _, _, _ => true

/-- Ascending insertion of an integer into a sorted duplicate-free list. -/
def insSortedInt (x : Int) : List Int → List Int
  | [] => [x]
  | y :: ys => if x < y then x :: y :: ys else if x = y then y :: ys else y :: insSortedInt x ys

/-- `sorted(set(l))`: ascending duplicate-free enumeration. -/
def sortedSetInt (l : List Int) : List Int := l.foldr insSortedInt []

/-- The intersection fold of `get_destinations`: `reduce(and_, ...)` over
the `match_all` sets of the remaining environments of a group. -/
def interAll (f : Nat) (w : Word) (s : Slice) (cx : Cx) (acc : List Int) :
    List Env → Except RErr (List Int)
  | [] => .ok acc
  | e :: es =>
      match envMatchAll f e w s cx with
      | .error er => .error er
      | .ok l' => interAll f w s cx (acc.filter (fun x => l'.contains x)) es

/-- `InsertPredicate.get_destinations`: pick the destination group indexed
by `index mod` the group count (`ZeroDivisionError` when there are no
groups), intersect the `match_all` sets of the group's environments
(`reduce` raises `TypeError` on an empty group), and sort ascending. -/
def getDestinations (f : Nat) (dests : List (List Env)) (w : Word) (s : Slice)
    (cx : Cx) (index : Nat) : Except RErr (List Int) :=
  if dests.length = 0 then .error .zeroDivErr
  else
    match dests.getD (index % dests.length) [] with
    | [] => .error (.merr .typeErr)
    | e :: es =>
        match envMatchAll f e w s cx with
        | .error er => .error er
        | .ok l0 =>
            match interAll f w s cx (sortedSetInt l0) es with
            | .error er => .error er
            | .ok res => .ok (sortedSetInt res)

/-- `SubstPredicate.get_replacement`: the replacement pattern indexed
mod the replacement count, resolved against the matched target and
rendered by `as_phones` seeded with the phone before the match. -/
def getReplacement (f : Nat) (reps : List (List Elem)) (w : Word) (s : Slice)
    (cx : Cx) (index : Nat) : Except RErr (List String) :=
  if reps.length = 0 then .error .zeroDivErr
  else
    let rep := reps.getD (index % reps.length) []
    let resolved := resolvePattern f rep (pySlice w s)
    match pyIndex w (s.start - 1) with
    | .error er => .error er
    | .ok last => asPhones f resolved last cx

/-- `Predicate.get_changes` for each predicate kind.  Substitution emits
one edit replacing the match; copy emits a zero-width insertion of the
matched phones at each destination; move prepends the deletion edit
`(match, [])`. -/
def predGetChanges (f : Nat) (p : Pred) (w : Word) (s : Slice) (cx : Cx)
    (index : Nat) : Except RErr (List (Slice × List String)) :=
  match p with
  | .subst reps _ _ =>
      match getReplacement f reps w s cx index with
      | .error er => .error er
      | .ok r => .ok [(s, r)]
  | .copy dests _ _ =>
      match getDestinations f dests w s cx index with
      | .error er => .error er
      | .ok ds => .ok (ds.map (fun d => (⟨d, d⟩, pySlice w s)))
  | .move dests _ _ =>
      match getDestinations f dests w s cx index with
      | .error er => .error er
      | .ok ds => .ok ((s, []) :: ds.map (fun d => (⟨d, d⟩, pySlice w s)))

/-- A rule target: a pattern with an optional index filter. -/
structure Target where
  pattern : List Elem
  indices : List Int

/-- Rule flags (`rules.py`), with the source's defaults. -/
structure Flags where
  ignore : Int := 0
  ditto : Int := 0
  stop : Int := 0
  rtl : Int := 0
  repeatCount : Nat := 1
  persist : Nat := 1
  chance : Nat := 100
deriving DecidableEq, Repr

/-- A rule: targets, predicates, flags. -/
structure Rule where
  targets : List Target
  predicates : List Pred
  flags : Flags

/-- The enumeration inside `Target.match`: try `pattern.match(word,
start=i)` for `i` ascending through `n` positions, keeping the successful
matches other than `slice(0, 0)`. -/
def scanStarts (f : Nat) (pat : List Elem) (w : Word) : Nat → Nat →
    Except MErr (List (Slice × Cx))
  | _, 0 => .ok []
  | i, n + 1 =>
      match patternMatch f pat w (.fromStart i) [] with
      | .error er => .error er
      | .ok r =>
          match scanStarts f pat w (i + 1) n with
          | .error er => .error er
          | .ok rest =>
              .ok ((match r with
                    | (some s, cx) => if s = (⟨0, 0⟩ : Slice) then [] else [(s, cx)]
                    | (none, _) => []) ++ rest)

/-- The index filter of `Target.match`: `[matches[ix] for ix in indices if
-len(matches) <= ix < len(matches)]`. -/
def indicesFilter (ixs : List Int) (ms : List (Slice × Cx)) : List (Slice × Cx) :=
  ixs.filterMap (fun ix =>
    if -(ms.length : Int) ≤ ix ∧ ix < (ms.length : Int) then
      some (ms.getD (if ix < 0 then ix + ms.length else ix).toNat (⟨0, 0⟩, []))
    else none)

/-- `Target.match(word)`. -/
def targetMatch (f : Nat) (t : Target) (w : Word) : Except RErr (List (Slice × Cx)) :=
  match liftME (scanStarts f t.pattern w 0 w.length) with
  | .error er => .error er
  | .ok ms => .ok (if t.indices.isEmpty then ms else indicesFilter t.indices ms)

/-- A found target: match slice, catixes, and the index of the target that
produced it. -/
abbrev TEntry := Slice × Cx × Nat

/-- The collection loop of `Rule._get_targets`: all matches of all targets
in declaration order, each tagged with its target's index. -/
def collectTargets (f : Nat) (w : Word) : List Target → Nat → Except RErr (List TEntry)
  | [], _ => .ok []
  | t :: ts, k =>
      match targetMatch f t w with
      | .error er => .error er
      | .ok ms =>
          match collectTargets f w ts (k + 1) with
          | .error er => .error er
          | .ok r => .ok (ms.map (fun (s, cx) => (s, cx, k)) ++ r)

/-- Lexicographic strict order on integer-pair sort keys. -/
def keyLt (p q : Int × Int) : Bool := p.1 < q.1 || (p.1 = q.1 && p.2 < q.2)

/-- Stable insertion of an element into a key-sorted list: the new element
goes after all entries with a key not greater than its own, matching the
stability of Python's `list.sort`. -/
def insKeyed (key : α → Int × Int) (x : α) : List α → List α
  | [] => [x]
  | y :: ys =>
      if keyLt (key x) (key y) then x :: y :: ys else y :: insKeyed key x ys

/-- Stable sort by an integer-pair key (lexicographic). -/
def sortKeyed (key : α → Int × Int) : List α → List α
  | [] => []
  | x :: xs => insKeyed key x (sortKeyed key xs)

/-- `Rule._get_targets`: collect, fail with `NoTargetsFound` when empty,
then sort by `(-stop, target_index)` under the `rtl` flag and by
`(start, target_index)` otherwise. -/
def getTargets (f : Nat) (r : Rule) (w : Word) : Except RErr (List TEntry) :=
  match collectTargets f w r.targets 0 with
  | .error er => .error er
  | .ok all =>
      if all.isEmpty then .error .noTargetsFound
      else if r.flags.rtl ≠ 0 then
        .ok (sortKeyed (fun e => (-e.1.stop, (e.2.2 : Int))) all)
      else
        .ok (sortKeyed (fun e => (e.1.start, (e.2.2 : Int))) all)

/-- `overlaps(match1, match2)` from `rules.py`. -/
def overlaps (a b : Slice) : Bool :=
  (a.start < b.start ∧ b.start < a.stop) ∨
  (b.start < a.start ∧ a.start < b.stop) ∨
  (a.start = b.start ∧ ((a.start = a.stop) ↔ (b.start = b.stop)))

/-- A validated target additionally records the index of the accepting
predicate. -/
abbrev VEntry := Slice × Cx × Nat × Nat

/-- The predicate scan of `Rule._validate_targets`: the index of the first
predicate accepting the target, if any. -/
def findPred (f : Nat) (w : Word) (s : Slice) (cx : Cx) : List Pred → Nat →
    Except RErr (Option Nat)
  | [], _ => .ok none
  | p :: ps, k =>
      match predMatch f p w s cx with
      | .error er => .error er
      | .ok true => .ok (some k)
      | .ok false => findPred f w s cx ps (k + 1)

/-- The loop of `Rule._validate_targets`: skip a candidate that overlaps
the last validated target, otherwise record the first accepting
predicate. -/
def validateLoop (f : Nat) (preds : List Pred) (w : Word) :
    List TEntry → List VEntry → Except RErr (List VEntry)
  | [], acc => .ok acc
  | (s, cx, i) :: ts, acc =>
      if acc ≠ [] ∧ overlaps s (acc.getLastD (⟨0, 0⟩, [], 0, 0)).1 then
        validateLoop f preds w ts acc
      else
        match findPred f w s cx preds 0 with
        | .error er => .error er
        | .ok none => validateLoop f preds w ts acc
        | .ok (some k) => validateLoop f preds w ts (acc ++ [(s, cx, i, k)])

/-- `Rule._validate_targets`. -/
def validateTargets (f : Nat) (preds : List Pred) (w : Word) (targets : List TEntry) :
    Except RErr (List VEntry) :=
  match validateLoop f preds w targets [] with
  | .error er => .error er
  | .ok [] => .error .noTargetsValidated
  | .ok v => .ok v

/-- The body of the `Rule._get_changes` loop for one validated target:
take a copy of the accumulated changes, append every emitted change that
overlaps none already queued, and keep the extension only if the
predicate's `verify` accepts the length change. -/
def getChangesStep (f : Nat) (preds : List Pred) (w : Word)
    (changes : List (Slice × List String)) (t : VEntry) :
    Except RErr (List (Slice × List String)) :=
  match preds.get? t.2.2.2 with
  | none => .error (.merr .indexErr)
  | some pred =>
      match predGetChanges f pred w t.1 t.2.1 t.2.2.1 with
      | .error er => .error er
      | .ok newChs =>
          let merged := newChs.foldl (fun acc ch =>
            if acc.any (fun pch => overlaps ch.1 pch.1) then acc else acc ++ [ch]) changes
          .ok (if predVerify pred changes.length merged.length then merged else changes)

/-- `Rule._get_changes`: fold the step over the validated targets. -/
def getChanges (f : Nat) (preds : List Pred) (w : Word) :
    List VEntry → List (Slice × List String) → Except RErr (List (Slice × List String))
  | [], acc => .ok acc
  | t :: ts, acc =>
      match getChangesStep f preds w acc t with
      | .error er => .error er
      | .ok acc' => getChanges f preds w ts acc'

/-- `Word.replace(match, replacement)`: Python `phones[:start] +
replacement + phones[stop:]`. -/
def wordReplace (w : Word) (s : Slice) (repl : List String) : Word :=
  let n : Int := w.length
  let norm : Int → Nat := fun x => (if x < 0 then max 0 (n + x) else min x n).toNat
  w.take (norm s.start) ++ repl ++ w.drop (norm s.stop)

/-- `Rule._apply_changes`: apply the edits sorted by `(-stop, -start)`,
i.e. right-to-left. -/
def applyChanges (w : Word) (changes : List (Slice × List String)) : Word :=
  (sortKeyed (fun c => (-c.1.stop, -c.1.start)) changes).foldl
    (fun w' c => wordReplace w' c.1 c.2) w

/-- `Rule._apply`: the four phases of a rule application. -/
def ruleApply (f : Nat) (r : Rule) (w : Word) : Except RErr Word :=
  match getTargets f r w with
  | .error er => .error er
  | .ok targets =>
      match validateTargets f r.predicates w targets with
      | .error er => .error er
      | .ok validated =>
          match getChanges f r.predicates w validated [] with
          | .error er => .error er
          | .ok changes => .ok (applyChanges w changes)

/-! ## Rule blocks (`RuleBlock._apply` and `BaseRule.__call__`) -/

/-- A member of a rule block: a plain rule or a nested block. -/
inductive BRule where
  | rul (r : Rule)
  | block (rules : List BRule) (flags : Flags)

/-- The flags of a block member. -/
def BRule.flags : BRule → Flags
  | .rul r => r.flags
  | .block _ fl => fl

/-- `randint(1, 100)` modelled through the draw oracle: the `k`-th draw,
clamped into `[1, 100]`. -/
def randDraw (draws : Nat → Nat) (k : Nat) : Nat := draws k % 100 + 1

/-- Call shapes of the block layer (`BaseRule.__call__`, its repeat loop,
`_apply` dispatch, and the two loops of `RuleBlock._apply`), folded into a
single fuel-indexed function.  All cases share the result type
`Word × Nat × Bool × Bool` (word, draw counter, `applied`, stop signal);
the call/repeat/apply cases leave the two flags `false` and their wrappers
discard them. -/
inductive BCall where
  | call (br : BRule) (k : Nat) (w : Word)
  | rep (br : BRule) (n : Nat) (k : Nat) (w : Word)
  | app (br : BRule) (k : Nat) (w : Word)
  | inner (rs : List BRule) (k : Nat) (w : Word) (applied : Bool)
  | outer (pending : List BRule) (k : Nat) (w : Word) (applied : Bool)
      (acc : List BRule) (vals : List Nat) (tupled : Bool)

/-- One fuel layer of the block machinery:

* `call` — `BaseRule.__call__` (with `nested=True`): draw the chance roll,
  raise `RuleRandomlySkipped` when it exceeds the `chance` flag, otherwise
  apply up to `repeat` times, stopping early when the word is unchanged.
  The draw counter is threaded through; an error aborts the call (the
  counter of an aborted call is not observable to any claim);
* `rep` — the `for _ in range(repeat)` loop of `__call__`;
* `app` — `_apply` of a block member (a plain rule or a nested block);
* `inner` — the inner loop of `RuleBlock._apply`: run the current rule and
  the persistent rules, gated by the `ditto` flag, catching
  `RuleDidNotApply`; the raised `BlockStopped` becomes a stop signal;
* `outer` — the outer loop of `RuleBlock._apply`: after the inner loop,
  append the current rule to the persistence lists, then rebuild them
  through `zip(*[(r, v-1) for r, v in zip(rules, values) if v > 1])`.  When
  the filtered list is empty that unpacking raises `ValueError`; when it is
  non-empty it rebinds `rules`/`values` to tuples, so the `append` of the
  following iteration raises `AttributeError` — the `tupled` flag models
  that.  A stop signal returns the current word (`except BlockStopped:
  pass`). -/
def brun (draws : Nat → Nat) : Nat → BCall → Except RErr (Word × Nat × Bool × Bool)
  | 0, _ => .error (.merr .recursionErr)
  | f + 1, c =>
      match c with
      | .call br k w =>
          if randDraw draws k ≤ br.flags.chance then
            brun draws f (.rep br br.flags.repeatCount (k + 1) w)
          else .error .ruleRandomlySkipped
      | .rep br n k w =>
          match n with
          | 0 => .ok (w, k, false, false)
          | n + 1 =>
              match brun draws f (.app br k w) with
              | .error er => .error er
              | .ok (w', k', _, _) =>
                  if w' = w then .ok (w', k', false, false)
                  else brun draws f (.rep br n k' w')
      | .app br k w =>
          match br with
          | .rul r =>
              match ruleApply f r w with
              | .error er => .error er
              | .ok w' => .ok (w', k, false, false)
          | .block rules _ => brun draws f (.outer rules k w false [] [] false)
      | .inner rs k w applied =>
          match rs with
          | [] => .ok (w, k, applied, false)
          | r :: rest =>
              let fl := r.flags
              if fl.ditto = 0 ∨ (decide (fl.ditto ≠ 1)).xor applied then
                match brun draws f (.call r k w) with
                | .ok (w', k', _, _) =>
                    if fl.stop ≠ 0 ∧ (decide (fl.stop ≠ 1)).xor true then
                      .ok (w', k', true, true)
                    else brun draws f (.inner rest k' w' true)
                | .error e =>
                    if e.isDidNotApply then
                      if fl.stop ≠ 0 ∧ (decide (fl.stop ≠ 1)).xor false then
                        .ok (w, k, false, true)
                      else brun draws f (.inner rest k w false)
                    else .error e
              else brun draws f (.inner rest k w applied)
      | .outer pending k w applied acc vals tupled =>
          match pending with
          | [] => .ok (w, k, applied, false)
          | cur :: restRules =>
              match brun draws f (.inner (cur :: acc) k w applied) with
              | .error er => .error er
              | .ok (w', k', applied', stopped) =>
                  if stopped then .ok (w', k', applied', false)
                  else if tupled then .error .attributeErr
                  else
                    let acc' := acc ++ [cur]
                    let vals' := vals ++ [cur.flags.persist]
                    let pairs := (acc'.zip vals').filterMap
                      (fun rv => if 1 < rv.2 then some (rv.1, rv.2 - 1) else none)
                    match pairs with
                    | [] => .error .valueErr
                    | _ :: _ =>
                        brun draws f (.outer restRules k' w' applied'
                          (pairs.map (fun rv => rv.1)) (pairs.map (fun rv => rv.2)) true)

/-- `BaseRule.__call__` (with `nested=True`). -/
def ruleCall (f : Nat) (draws : Nat → Nat) (k : Nat) (br : BRule) (w : Word) :
    Except RErr (Word × Nat) :=
  match brun draws f (.call br k w) with
  | .error er => .error er
  | .ok (w', k', _, _) => .ok (w', k')

/-- `RuleBlock._apply`. -/
def blockApply (f : Nat) (draws : Nat → Nat) (k : Nat) (rules : List BRule)
    (w : Word) : Except RErr (Word × Nat) :=
  match brun draws f (.outer rules k w false [] [] false) with
  | .error er => .error er
  | .ok (w', k', _, _) => .ok (w', k')

/-! ## Claim C10: the empty pattern matches at any anchor -/

/-- Claim C10: for every word, every integer anchor `i` (also outside
`[0, len(word)]`), and every input catixes map `m`, matching the empty
pattern with `start=i` or `stop=i` succeeds with the zero-length range
`slice(i, i)` and the map `m` unchanged; no bounds check is applied to the
anchor. -/
theorem emptyPattern_matches_any_anchor (f : Nat) (w : Word) (i : Int) (m : Cx) :
    patternMatch (f + 2) [] w (.fromStart i) m = .ok (some ⟨i, i⟩, m) ∧
    patternMatch (f + 2) [] w (.fromStop i) m = .ok (some ⟨i, i⟩, m) := by
  constructor <;> simp [patternMatch, patMatchAux, mrun]

/-! ## Claim C3: the shape of the public matcher surface -/

/-- Claim C3 (corrected): for every pattern, word, anchor and catixes map,
`Pattern.match` never lets `MatchFailed` escape; whenever it returns
normally the result is either a range with a catixes map or `None`
together with the empty map.  (The correction: for patterns containing
`SylBreak`, `Comparison` or `TargetRef` elements the call raises
`TypeError`, an out-of-range bound subscript raises `IndexError`, and
unbounded recursion raises `RecursionError`; these exceptions do escape —
see the counterexample.) -/
theorem patternMatch_never_matchFailed (f : Nat) (p : List Elem) (w : Word)
    (a : Anchor) (m : Cx) :
    patternMatch f p w a m ≠ .error .matchFailed ∧
    ∀ r, patternMatch f p w a m = .ok r →
      (∃ s m', r = (some s, m')) ∨ r = (none, ([] : Cx)) := by
  rcases h : patMatchAux f p w a m with er | ⟨l, m'⟩
  · cases er <;> simp [patternMatch, h]
  · cases a <;> simp [patternMatch, h]

/-- Witness for C3's theorem at a concrete input: a one-grapheme pattern on
a concrete word, where the match succeeds. -/
theorem patternMatch_never_matchFailed_witness :
    (∃ s m', ((some (⟨1, 2⟩ : Slice), ([] : Cx)) : Option Slice × Cx) = (some s, m')) ∨
      ((some (⟨1, 2⟩ : Slice), ([] : Cx)) : Option Slice × Cx) = (none, ([] : Cx)) :=
  (patternMatch_never_matchFailed 10 [.grapheme "a"] ["#", "a", "#"]
    (.fromStart 1) []).2 (some ⟨1, 2⟩, []) (by rfl)

/-- Counterexample for C3 as stated: a pattern containing `SylBreak` makes
`Pattern.match` raise `TypeError` (the base `Element.match` is called with
one positional argument too many), which escapes the public surface, so
the result is neither a range with a map nor `None` with the empty map. -/
theorem patternMatch_sylBreak_typeErr_cex :
    patternMatch 10 [.sylBreak] ["#", "a", "#"] (.fromStart 1) [] = .error .typeErr := by
  decide

/-! ## Claim C1: category subscript binding and agreement -/

/-- Helper: `Category.match` against a map where the subscript is already
bound succeeds (leaving the map unchanged) exactly when the inspected phone
is the category entry at the bound position. -/
theorem elemMatch_category_bound (f : Nat) (w : Word) (cat : List String)
    (sub : Nat) (m : Cx) (a : Anchor) (idx : Nat) (k : Nat) (p : String)
    (h : getIndex w a = .ok idx) (hl : cxLookup m sub = some k)
    (hk : cat.get? k = some p) :
    elemMatch (f + 1) (.category cat (some sub)) w a m = .ok (1, m) ↔
      w.getD idx "" = p := by
  simp only [elemMatch, mrun, h, hl, hk]
  by_cases he : w.getD idx "" = p
  · simp [he]
  · simp [he]

/-- Claim C1: in `Category.match`, the first matched occurrence of a
subscripted category binds `catixes[sub] := cat.index_of(phone)`; a later
occurrence whose subscript is already bound matches exactly the phone
`cat[catixes[sub]]` and leaves the map unchanged; consequently, a later
occurrence of the same category with the same subscript, run against any
map carrying the binding made by the first occurrence, can only match the
very phone the first occurrence matched. -/
theorem category_subscript_binding (f : Nat) (w : Word) (cat : List String)
    (sub : Nat) (m : Cx) (a : Anchor) (idx : Nat) (h : getIndex w a = .ok idx) :
    (cxLookup m sub = none → w.getD idx "" ∈ cat →
      elemMatch (f + 1) (.category cat (some sub)) w a m
        = .ok (1, m ++ [(sub, cat.indexOf (w.getD idx ""))])) ∧
    (∀ k p, cxLookup m sub = some k → cat.get? k = some p →
      (elemMatch (f + 1) (.category cat (some sub)) w a m = .ok (1, m) ↔
        w.getD idx "" = p)) ∧
    (∀ (f' : Nat) (a₂ : Anchor) (idx₂ : Nat) (m₂ : Cx),
      getIndex w a₂ = .ok idx₂ →
      cxLookup m sub = none → w.getD idx "" ∈ cat →
      cxLookup m₂ sub = some (cat.indexOf (w.getD idx "")) →
      elemMatch (f' + 1) (.category cat (some sub)) w a₂ m₂ = .ok (1, m₂) →
      w.getD idx₂ "" = w.getD idx "") := by
  refine ⟨fun hl hmem => ?_, fun k p hl hk => elemMatch_category_bound f w cat sub m a idx k p h hl hk,
    fun f' a₂ idx₂ m₂ h₂ hl hmem hl₂ hm₂ => ?_⟩
  · simp only [elemMatch, mrun, h, hl]
    rw [if_pos hmem]
  · have hidx : cat.get? (cat.indexOf (w.getD idx "")) = some (w.getD idx "") :=
      List.indexOf_get? hmem
    exact (elemMatch_category_bound f' w cat sub m₂ a₂ idx₂
      (cat.indexOf (w.getD idx "")) (w.getD idx "") h₂ hl₂ hidx).1 hm₂

/-- Witness for C1's theorem: category `[a, b]` with subscript `1` on the
word `[b, b]`; the first occurrence binds `1 ↦ 1`, and with that binding a
second occurrence matches the phone `b` again. -/
theorem category_subscript_binding_witness :
    elemMatch 5 (.category ["a", "b"] (some 1)) ["b", "b"] (.fromStart 0) []
        = .ok (1, [(1, 1)]) ∧
    (["b", "b"] : Word).getD 1 "" = (["b", "b"] : Word).getD 0 "" := by
  refine ⟨?_, ?_⟩
  · exact (category_subscript_binding 4 ["b", "b"] ["a", "b"] 1 [] (.fromStart 0) 0
      (by rfl)).1 (by rfl) (by decide)
  · exact (category_subscript_binding 4 ["b", "b"] ["a", "b"] 1 [] (.fromStart 0) 0
      (by rfl)).2.2 4 (.fromStart 1) 1 [(1, 1)] (by rfl) (by rfl) (by decide)
      (by rfl) (by rfl)

/-! ## Claim C7: `GlobalEnvironment.match_all` with empty indices -/

/-- Helper: membership in an integer-cast `range'` list. -/
theorem mem_range'_intCast (n : Nat) (i : Int) :
    ∀ s : Nat, i ∈ (List.range' s n).map (fun k : Nat => (k : Int)) ↔
      (s : Int) ≤ i ∧ i < (s : Int) + n := by
  induction n with
  | zero => intro s; simp
  | succ n ih =>
    intro s
    rw [List.range'_succ, List.map_cons, List.mem_cons, ih (s + 1)]
    push_cast
    omega

/-- Counterexample for C7 as stated: a global environment with empty
indices whose pattern (`b`) matches nowhere in the word `[#, a, #]`.  Its
`match_all` nevertheless returns `[1, 2]`, while the environment itself
never succeeds — the resolved pattern fails at every start position, so
the set of indices at which the environment would succeed is empty. -/
theorem globalMatchAll_ignores_pattern_cex :
    envMatchAll 20 (.globalEnv [.grapheme "b"] []) ["#", "a", "#"] ⟨1, 2⟩ []
        = .ok [1, 2] ∧
    envMatch 20 (.globalEnv [.grapheme "b"] []) ["#", "a", "#"] ⟨1, 2⟩ []
        = .ok false ∧
    patternMatch 20 (resolvePattern 20 [.grapheme "b"] (pySlice ["#", "a", "#"] ⟨1, 2⟩))
        ["#", "a", "#"] (.fromStart 0) [] = .ok (none, []) ∧
    patternMatch 20 (resolvePattern 20 [.grapheme "b"] (pySlice ["#", "a", "#"] ⟨1, 2⟩))
        ["#", "a", "#"] (.fromStart 1) [] = .ok (none, []) ∧
    patternMatch 20 (resolvePattern 20 [.grapheme "b"] (pySlice ["#", "a", "#"] ⟨1, 2⟩))
        ["#", "a", "#"] (.fromStart 2) [] = .ok (none, []) := by
  exact ⟨rfl, rfl, rfl, rfl, rfl⟩

/-- Claim C7 (corrected): for every global environment with empty indices,
`match_all` ignores the pattern entirely (the source comments `# Ignoring
self.pattern`) and returns `list(range(1, len(word)))`, i.e. exactly the
integers `i` with `1 ≤ i < len(word)` — not the set of indices at which
the environment would succeed. -/
theorem globalMatchAll_empty_indices (f : Nat) (p : List Elem) (w : Word)
    (s : Slice) (cx : Cx) :
    envMatchAll f (.globalEnv p []) w s cx
        = .ok ((List.range' 1 (w.length - 1)).map (fun n : Nat => (n : Int))) ∧
    ∀ i : Int, i ∈ (List.range' 1 (w.length - 1)).map (fun n : Nat => (n : Int)) ↔
      1 ≤ i ∧ i < (w.length : Int) := by
  constructor
  · simp [envMatchAll]
  · intro i
    rw [mem_range'_intCast (w.length - 1) i 1]
    constructor
    · rintro ⟨h1, h2⟩
      push_cast at h2 ⊢
      omega
    · rintro ⟨h1, h2⟩
      constructor
      · exact_mod_cast h1
      · push_cast
        omega

/-! ## Claim C6: Move edits and verification -/

/-- Claim C6: `Move.get_changes` prepends the deletion edit `(match, [])`
to the Insert-style zero-width insertions at each destination (here stated
against `Copy`, which shares `InsertPredicate.get_changes` verbatim);
`Move.verify(old, new)` accepts exactly when `new > old + 1`; hence in the
change-assembly step of `Rule._get_changes`, a Move whose accepted changes
do not grow the queue by more than the deletion edit is rolled back and
the accumulated changes are untouched. -/
theorem move_changes_and_verify (f : Nat) (dests conds excs : List (List Env))
    (w : Word) (s : Slice) (cx : Cx) (i : Nat) :
    (predGetChanges f (.move dests conds excs) w s cx i
        = (predGetChanges f (.copy dests conds excs) w s cx i).map
            (fun l => (s, []) :: l)) ∧
    (∀ old new : Nat, predVerify (.move dests conds excs) old new = true ↔ old + 1 < new) ∧
    (∀ (preds : List Pred) (changes : List (Slice × List String)) (t : VEntry)
        (r : List (Slice × List String)),
      preds.get? t.2.2.2 = some (.move dests conds excs) →
      getChangesStep f preds w changes t = .ok r →
      r = changes ∨ changes.length + 1 < r.length) := by
  refine ⟨?_, ?_, ?_⟩
  · cases h : getDestinations f dests w s cx i <;>
      simp [predGetChanges, h, Except.map]
  · intro old new
    simp [predVerify]
  · intro preds changes t r hp hs
    simp only [getChangesStep, hp] at hs
    cases hc : predGetChanges f (.move dests conds excs) w t.1 t.2.1 t.2.2.1 with
    | error er => simp [hc] at hs
    | ok newChs =>
        simp only [hc] at hs
        split at hs
        next hv =>
          right
          injection hs with h2
          subst h2
          simpa [predVerify] using hv
        next hv =>
          left
          injection hs with h2
          exact h2.symm

/-- Witness for C6's theorem: a Move with one destination environment on a
concrete word (its deletion edit plus one insertion pass the verify check,
so the step keeps the merged changes — the right disjunct). -/
theorem move_changes_and_verify_witness :
    ([((⟨1, 2⟩ : Slice), ([] : List String)), (⟨5, 5⟩, ["a"])]
        = ([] : List (Slice × List String))) ∨
      (0 + 1 < 2) :=
  (move_changes_and_verify 20 [[.globalEnv [] [5]]] [] []
      (List.replicate 10 "a") ⟨1, 2⟩ [] 0).2.2
    [.move [[.globalEnv [] [5]]] [] []] [] (⟨1, 2⟩, [], 0, 0)
    [(⟨1, 2⟩, []), (⟨5, 5⟩, ["a"])] (by rfl) (by rfl)

/-! ## Claim C2: the `aa > b` scenario under the `rtl` flag -/

/-- The word `"aaa"` as tokenised by `Word.parse`. -/
def wordAAA : Word := ["#", "a", "a", "a", "#"]

/-- The rule `aa > b` exactly as `Rule.parse` builds it: one target `aa`,
one substitution predicate with the parse defaults `conditions = [[]]` and
`exceptions = [[]]` (one empty conjunction group each). -/
def ruleAAtoB (rtl : Int) : Rule :=
  ⟨[⟨[.grapheme "a", .grapheme "a"], []⟩],
   [.subst [[.grapheme "b"]] [[]] [[]]], { rtl := rtl }⟩

/-- The same rule with the exception default the tests and the spec expect
(no exception groups at all); only then can any target validate. -/
def ruleAAtoB' (rtl : Int) : Rule :=
  ⟨[⟨[.grapheme "a", .grapheme "a"], []⟩],
   [.subst [[.grapheme "b"]] [[]] []], { rtl := rtl }⟩

/-- Claim C2 (code bug): applying `aa > b` as parsed to `[#,a,a,a,#]`
raises `NoTargetsValidated` — the parse default `exceptions = [[]]` is an
empty conjunction group, which matches vacuously and so rejects every
target in `Predicate.match`.  This contradicts the repo's own tests (e.g.
`test_Rule__validate_targets_skips_targets_if_they_overlap`).  With the
empty exception list the tests assume, the engine behaves exactly as the
claim describes: under `rtl` the targets sort by `(-stop, target_index)`,
the match at 2 validates first, the overlapping match at 1 is dropped, and
the output is `[#,a,b,#]` (`"ab"`); without `rtl` the match at 1 wins and
the output is `[#,b,a,#]` (`"ba"`). -/
theorem rtlRule_aa_to_b_eval :
    ruleApply 60 (ruleAAtoB 1) wordAAA = .error .noTargetsValidated ∧
    ruleApply 60 (ruleAAtoB 0) wordAAA = .error .noTargetsValidated ∧
    ruleApply 60 (ruleAAtoB' 1) wordAAA = .ok ["#", "a", "b", "#"] ∧
    ruleApply 60 (ruleAAtoB' 0) wordAAA = .ok ["#", "b", "a", "#"] ∧
    getTargets 60 (ruleAAtoB' 1) wordAAA
        = .ok [(⟨2, 4⟩, [], 0), (⟨1, 3⟩, [], 0)] ∧
    getTargets 60 (ruleAAtoB' 0) wordAAA
        = .ok [(⟨1, 3⟩, [], 0), (⟨2, 4⟩, [], 0)] := by
  exact ⟨rfl, rfl, rfl, rfl, rfl, rfl⟩

/-! ## Claim C5: `RuleBlock._apply` -/

/-- Claim C5 (code bug): a block containing a single rule with default
flags crashes.  After running the rule, the persistence update
`rules, values = zip(*[(r, v-1) for r, v in zip(rules, values) if v > 1])`
filters out the rule (its persistence count is the default 1), leaving an
empty list, and unpacking `zip(*[])` raises `ValueError`, which propagates
out of `RuleBlock._apply` — the block does not return the final word.
With two rules of persistence 2 the first update succeeds but rebinds the
lists to tuples, and the next iteration's `rules.append` raises
`AttributeError`.  The `RuleDidNotApply` errors themselves are caught as
the claim says (first conjunct: the rule inside does not apply, yet the
failure surfacing is `ValueError`, not a non-application error). -/
theorem blockApply_persistence_crash :
    blockApply 80 (fun _ => 0) 0 [.rul (ruleAAtoB 0)] ["#", "a", "#"]
        = .error .valueErr ∧
    blockApply 80 (fun _ => 0) 0 [.rul (ruleAAtoB' 0)] wordAAA
        = .error .valueErr ∧
    blockApply 80 (fun _ => 0) 0
        [.rul ⟨[⟨[.grapheme "a", .grapheme "a"], []⟩],
               [.subst [[.grapheme "b"]] [[]] []], { persist := 2 }⟩,
         .rul ⟨[⟨[.grapheme "a", .grapheme "a"], []⟩],
               [.subst [[.grapheme "b"]] [[]] []], { persist := 2 }⟩] wordAAA
        = .error .attributeErr := by
  exact ⟨rfl, rfl, rfl⟩


/-! ## Claim C9: monotone catixes threading -/

/-- The input catixes map of a matcher call. -/
def MCall.cxIn : MCall → Cx
  | .aux _ _ m => m
  | .loopF _ _ _ m => m
  | .loopR _ _ _ m => m
  | .elemM _ _ m => m
  | .mp _ _ _ m => m
  | .branch _ _ _ m => m
  | .mbr _ _ _ m => m
  | .rep _ _ _ _ _ m => m

/-- Helper: appending to the tail preserves every existing lookup. -/
theorem cxLookup_append (m t : Cx) (k v : Nat) (h : cxLookup m k = some v) :
    cxLookup (m ++ t) k = some v := by
  induction m with
  | nil => cases h
  | cons p r ih =>
      rw [List.cons_append, cxLookup]
      rw [cxLookup] at h
      by_cases hk : p.1 = k
      · simpa [hk] using h
      · rw [if_neg hk] at h ⊢
        exact ih h

/-- Every successful matcher step returns a map extending its input map by
a (possibly empty) suffix: the source only ever passes `catixes` on
unchanged or extends it by `catixes | {sub: ix}` with an absent key, and
each backtracking fallback restarts from the map it was given. -/
theorem mrun_cxIn_extends (w : Word) :
    ∀ f c l m', mrun w f c = .ok (l, m') → ∃ t, m' = c.cxIn ++ t := by
  intro f
  induction f with
  | zero => intro c l m' h; simp [mrun] at h
  | succ f ih =>
    intro c l m' h
    cases c with
    | aux els a m =>
        cases a with
        | fromStart i => exact ih (.loopF els i 0 m) l m' h
        | fromStop j => exact ih (.loopR els.reverse j 0 m) l m' h
    | loopF els i len m =>
        cases els with
        | nil =>
            simp only [mrun] at h
            injection h with h'
            injection h' with h1 h2
            exact ⟨[], by rw [List.append_nil]; exact h2.symm⟩
        | cons e rest =>
            simp only [mrun] at h
            cases ha : advance w len (.fromStart i) with
            | error er => simp [ha] at h
            | ok a' =>
                simp only [ha] at h
                by_cases hb : e.hasMatchPattern = true
                · rw [if_pos hb] at h
                  cases hm : mrun w f (.mp e rest a' m) with
                  | error er => simp [hm] at h
                  | ok pr =>
                      obtain ⟨l2, m2⟩ := pr
                      simp only [hm] at h
                      injection h with h'
                      injection h' with h1 h2
                      obtain ⟨t, ht⟩ := ih _ _ _ hm
                      have ht' : m2 = m ++ t := ht
                      exact ⟨t, by rw [← h2]; exact ht'⟩
                · rw [if_neg hb] at h
                  cases hm : mrun w f (.elemM e a' m) with
                  | error er => simp [hm] at h
                  | ok pr =>
                      obtain ⟨l1, m1⟩ := pr
                      simp only [hm] at h
                      obtain ⟨t1, ht1⟩ := ih _ _ _ hm
                      obtain ⟨t2, ht2⟩ := ih _ _ _ h
                      have ht1' : m1 = m ++ t1 := ht1
                      have ht2' : m' = m1 ++ t2 := ht2
                      exact ⟨t1 ++ t2, by rw [ht2', ht1', List.append_assoc]; rfl⟩
    | loopR revEls j len m =>
        cases revEls with
        | nil =>
            simp only [mrun] at h
            injection h with h'
            injection h' with h1 h2
            exact ⟨[], by rw [List.append_nil]; exact h2.symm⟩
        | cons e revRest =>
            simp only [mrun] at h
            cases ha : advance w len (.fromStop j) with
            | error er => simp [ha] at h
            | ok a' =>
                simp only [ha] at h
                by_cases hb : e.hasMatchPattern = true
                · rw [if_pos hb] at h
                  cases hm : mrun w f (.mp e revRest.reverse a' m) with
                  | error er => simp [hm] at h
                  | ok pr =>
                      obtain ⟨l2, m2⟩ := pr
                      simp only [hm] at h
                      injection h with h'
                      injection h' with h1 h2
                      obtain ⟨t, ht⟩ := ih _ _ _ hm
                      have ht' : m2 = m ++ t := ht
                      exact ⟨t, by rw [← h2]; exact ht'⟩
                · rw [if_neg hb] at h
                  cases hm : mrun w f (.elemM e a' m) with
                  | error er => simp [hm] at h
                  | ok pr =>
                      obtain ⟨l1, m1⟩ := pr
                      simp only [hm] at h
                      obtain ⟨t1, ht1⟩ := ih _ _ _ hm
                      obtain ⟨t2, ht2⟩ := ih _ _ _ h
                      have ht1' : m1 = m ++ t1 := ht1
                      have ht2' : m' = m1 ++ t2 := ht2
                      exact ⟨t1 ++ t2, by rw [ht2', ht1', List.append_assoc]; rfl⟩
    | elemM e a m =>
        cases e with
        | grapheme g =>
            simp only [mrun] at h
            cases hg : getIndex w a with
            | error er => simp [hg] at h
            | ok idx =>
                simp only [hg] at h
                split at h
                · injection h with h'
                  injection h' with h1 h2
                  exact ⟨[], by rw [List.append_nil]; exact h2.symm⟩
                · cases h
        | ditto =>
            simp only [mrun] at h
            cases hg : getIndex w a with
            | error er => simp [hg] at h
            | ok idx =>
                simp only [hg] at h
                split at h
                · injection h with h'
                  injection h' with h1 h2
                  exact ⟨[], by rw [List.append_nil]; exact h2.symm⟩
                · cases h
        | category cat sub =>
            cases sub with
            | none =>
                simp only [mrun] at h
                cases hg : getIndex w a with
                | error er => simp [hg] at h
                | ok idx =>
                    simp only [hg] at h
                    split at h
                    · injection h with h'
                      injection h' with h1 h2
                      exact ⟨[], by rw [List.append_nil]; exact h2.symm⟩
                    · cases h
            | some sb =>
                simp only [mrun] at h
                cases hg : getIndex w a with
                | error er => simp [hg] at h
                | ok idx =>
                    simp only [hg] at h
                    cases hl : cxLookup m sb with
                    | some k =>
                        simp only [hl] at h
                        cases hk : cat.get? k with
                        | none => simp only [hk] at h; cases h
                        | some p =>
                            simp only [hk] at h
                            split at h
                            · injection h with h'
                              injection h' with h1 h2
                              exact ⟨[], by rw [List.append_nil]; exact h2.symm⟩
                            · cases h
                    | none =>
                        simp only [hl] at h
                        split at h
                        · injection h with h'
                          injection h' with h1 h2
                          exact ⟨_, h2.symm⟩
                        · cases h
        | wildcard g ext =>
            simp only [mrun] at h
            cases hg : getIndex w a with
            | error er => simp [hg] at h
            | ok idx =>
                simp only [hg] at h
                split at h
                · injection h with h'
                  injection h' with h1 h2
                  exact ⟨[], by rw [List.append_nil]; exact h2.symm⟩
                · cases h
        | repetition p n => exact ih (.aux p a m) l m' h
        | wildcardRep p g => exact ih (.aux p a m) l m' h
        | optional p g => exact ih (.aux p a m) l m' h
        | sylBreak => simp [mrun] at h
        | comparison op v p => simp [mrun] at h
        | targetRef d => simp [mrun] at h
    | mp e rest a m =>
        cases e with
        | wildcard g ext =>
            simp only [mrun] at h
            cases h1 : mrun w f (.elemM (.wildcard g ext) a m) with
            | error er => simp [h1] at h
            | ok pr =>
                obtain ⟨l1, m1⟩ := pr
                simp only [h1] at h
                cases ha : advance w l1 a with
                | error er => simp [ha] at h
                | ok a' =>
                    simp only [ha] at h
                    cases h2 : mrun w f (.branch (.wildcard g ext) rest a' m1) with
                    | error er => simp [h2] at h
                    | ok pr2 =>
                        obtain ⟨l2, m2⟩ := pr2
                        simp only [h2] at h
                        injection h with h'
                        injection h' with hle hme
                        obtain ⟨t1, ht1⟩ := ih _ _ _ h1
                        obtain ⟨t2, ht2⟩ := ih _ _ _ h2
                        have ht1' : m1 = m ++ t1 := ht1
                        have ht2' : m2 = m1 ++ t2 := ht2
                        exact ⟨t1 ++ t2, by
                          rw [← hme, ht2', ht1', List.append_assoc]; rfl⟩
        | wildcardRep p g =>
            simp only [mrun] at h
            cases h1 : mrun w f (.elemM (.wildcardRep p g) a m) with
            | error er => simp [h1] at h
            | ok pr =>
                obtain ⟨l1, m1⟩ := pr
                simp only [h1] at h
                cases ha : advance w l1 a with
                | error er => simp [ha] at h
                | ok a' =>
                    simp only [ha] at h
                    cases h2 : mrun w f (.branch (.wildcardRep p g) rest a' m1) with
                    | error er => simp [h2] at h
                    | ok pr2 =>
                        obtain ⟨l2, m2⟩ := pr2
                        simp only [h2] at h
                        injection h with h'
                        injection h' with hle hme
                        obtain ⟨t1, ht1⟩ := ih _ _ _ h1
                        obtain ⟨t2, ht2⟩ := ih _ _ _ h2
                        have ht1' : m1 = m ++ t1 := ht1
                        have ht2' : m2 = m1 ++ t2 := ht2
                        exact ⟨t1 ++ t2, by
                          rw [← hme, ht2', ht1', List.append_assoc]; rfl⟩
        | optional p g => exact ih (.branch (.optional p g) rest a m) l m' h
        | repetition p n => exact ih (.rep p n rest a 0 m) l m' h
        | grapheme g => simp [mrun] at h
        | ditto => simp [mrun] at h
        | category cat sub => simp [mrun] at h
        | sylBreak => simp [mrun] at h
        | comparison op v p => simp [mrun] at h
        | targetRef d => simp [mrun] at h
    | branch e rest a m =>
        simp only [mrun] at h
        split at h
        · cases h1 : mrun w f (.mbr e rest a m) with
          | error er =>
              simp only [h1] at h
              cases er with
              | matchFailed => exact ih (.aux rest a m) l m' h
              | typeErr => cases h
              | indexErr => cases h
              | recursionErr => cases h
          | ok pr =>
              obtain ⟨lp, mp⟩ := pr
              simp only [h1] at h
              injection h with h'
              injection h' with hl2 hm2
              obtain ⟨t, ht⟩ := ih _ _ _ h1
              exact ⟨t, by rw [← hm2]; exact ht⟩
        · cases h1 : mrun w f (.aux rest a m) with
          | error er =>
              simp only [h1] at h
              exact ih (.mbr e rest a m) l m' h
          | ok pr =>
              obtain ⟨lp, mp⟩ := pr
              simp only [h1] at h
              injection h with h'
              injection h' with hl2 hm2
              obtain ⟨t, ht⟩ := ih _ _ _ h1
              exact ⟨t, by rw [← hm2]; exact ht⟩
    | mbr e rest a m =>
        cases e with
        | wildcard g ext => exact ih (.mp (.wildcard g ext) rest a m) l m' h
        | wildcardRep p g => exact ih (.mp (.wildcardRep p g) rest a m) l m' h
        | optional p g =>
            simp only [mrun] at h
            cases h1 : mrun w f (.aux p a m) with
            | error er => simp [h1] at h
            | ok pr =>
                obtain ⟨l1, m1⟩ := pr
                simp only [h1] at h
                cases ha : advance w l1 a with
                | error er => simp [ha] at h
                | ok a' =>
                    simp only [ha] at h
                    cases h2 : mrun w f (.aux rest a' m1) with
                    | error er => simp [h2] at h
                    | ok pr2 =>
                        obtain ⟨l2, m2⟩ := pr2
                        simp only [h2] at h
                        injection h with h'
                        injection h' with hle hme
                        obtain ⟨t1, ht1⟩ := ih _ _ _ h1
                        obtain ⟨t2, ht2⟩ := ih _ _ _ h2
                        have ht1' : m1 = m ++ t1 := ht1
                        have ht2' : m2 = m1 ++ t2 := ht2
                        exact ⟨t1 ++ t2, by
                          rw [← hme, ht2', ht1', List.append_assoc]; rfl⟩
        | grapheme g => simp [mrun] at h
        | ditto => simp [mrun] at h
        | category cat sub => simp [mrun] at h
        | repetition p n => simp [mrun] at h
        | sylBreak => simp [mrun] at h
        | comparison op v p => simp [mrun] at h
        | targetRef d => simp [mrun] at h
    | rep p k rest a len m =>
        cases k with
        | zero =>
            simp only [mrun] at h
            cases ha : advance w len a with
            | error er => simp [ha] at h
            | ok a' =>
                simp only [ha] at h
                cases h1 : mrun w f (.aux rest a' m) with
                | error er => simp [h1] at h
                | ok pr =>
                    obtain ⟨lr, mr⟩ := pr
                    simp only [h1] at h
                    injection h with h'
                    injection h' with hle hme
                    obtain ⟨t, ht⟩ := ih _ _ _ h1
                    have ht' : mr = m ++ t := ht
                    exact ⟨t, by rw [← hme, ht']; rfl⟩
        | succ k =>
            simp only [mrun] at h
            cases ha : advance w len a with
            | error er => simp [ha] at h
            | ok a' =>
                simp only [ha] at h
                cases h1 : mrun w f (.aux p a' m) with
                | error er => simp [h1] at h
                | ok pr =>
                    obtain ⟨li, mi⟩ := pr
                    simp only [h1] at h
                    obtain ⟨t1, ht1⟩ := ih _ _ _ h1
                    obtain ⟨t2, ht2⟩ := ih _ _ _ h
                    have ht1' : mi = m ++ t1 := ht1
                    have ht2' : m' = mi ++ t2 := ht2
                    exact ⟨t1 ++ t2, by rw [ht2', ht1', List.append_assoc]; rfl⟩

/-- Claim C9: whenever `Pattern.match` succeeds, the returned catixes map
is the input map extended by a suffix — bindings are only added, never
removed or changed (every existing lookup is preserved); bindings made in
a failed branch do not appear, because each backtracking fallback restarts
from the map it was handed. -/
theorem patternMatch_catixes_monotone (f : Nat) (p : List Elem) (w : Word)
    (a : Anchor) (m : Cx) (s : Slice) (m' : Cx)
    (h : patternMatch f p w a m = .ok (some s, m')) :
    (∃ t, m' = m ++ t) ∧ ∀ k v, cxLookup m k = some v → cxLookup m' k = some v := by
  have hx : ∃ l, patMatchAux f p w a m = .ok (l, m') := by
    rw [patternMatch] at h
    cases hy : patMatchAux f p w a m with
    | error er =>
        rw [hy] at h
        cases er <;> simp at h
    | ok pr =>
        obtain ⟨l, m2⟩ := pr
        rw [hy] at h
        cases a <;> simp at h <;> exact ⟨l, by rw [h.2]⟩
  obtain ⟨l, hl⟩ := hx
  obtain ⟨t, ht⟩ := mrun_cxIn_extends w f (.aux p a m) l m' hl
  refine ⟨⟨t, by simpa [MCall.cxIn] using ht⟩, fun k v hkv => ?_⟩
  have : m' = m ++ t := by simpa [MCall.cxIn] using ht
  rw [this]
  exact cxLookup_append m t k v hkv

/-- Witness for C9's theorem: a subscripted category match on a concrete
word extends the non-empty input map `[(5, 7)]` by the new binding
`(3, 1)` and preserves the lookup of key `5`. -/
theorem patternMatch_catixes_monotone_witness :
    (∃ t, [(5, 7), (3, 1)] = [(5, 7)] ++ t) ∧
      ∀ k v, cxLookup [(5, 7)] k = some v → cxLookup [(5, 7), (3, 1)] k = some v :=
  patternMatch_catixes_monotone 10 [.category ["a", "b"] (some 3)] ["b"]
    (.fromStart 0) [(5, 7)] ⟨0, 1⟩ [(5, 7), (3, 1)] (by rfl)

/-! ## Claim C8: anchored symmetry -/

/-- The rigid single-phone elements: `Grapheme`, `Ditto`, and a category
reference without subscript.  These consume exactly one phone, never
branch, and never touch the catixes map. -/
def Elem.isRigidFlat : Elem → Bool
  | .grapheme _ => true
  | .ditto => true
  | .category _ none => true
  | _ => false

/-- The word position a character element inspects under an anchor
(`get_index` without the bounds check). -/
def anchorPos : Anchor → Int
  | .fromStart i => i
  | .fromStop j => j - 1

/-- Whether a rigid element matches at absolute word position `q`
(bounds check included). -/
def elemOkAt (w : Word) (e : Elem) (q : Int) : Bool :=
  decide (0 ≤ q) && decide (q < (w.length : Int)) &&
  (match e with
   | .grapheme g => decide (w.getD q.toNat "" = g)
   | .ditto => decide (q.toNat ≠ 0 ∧ w.getD q.toNat "" = w.getD (q.toNat - 1) "")
   | .category cat none => decide (w.getD q.toNat "" ∈ cat)
   | _ => false)

/-- Whether a list of rigid elements matches at consecutive positions
starting from `q`. -/
def flatOk (w : Word) : List Elem → Int → Bool
  | [], _ => true
  | e :: rest, q => elemOkAt w e q && flatOk w rest (q + 1)

/-- Rigid elements are not branching. -/
theorem isRigidFlat_not_hasMatchPattern (e : Elem) (h : e.isRigidFlat = true) :
    e.hasMatchPattern = false := by
  cases e <;> simp_all [Elem.isRigidFlat, Elem.hasMatchPattern]

/-- `Element.match` of a rigid element is the position test `elemOkAt` at
the anchor's position. -/
theorem elemMatch_rigid (f : Nat) (e : Elem) (w : Word) (a : Anchor) (m : Cx)
    (hr : e.isRigidFlat = true) :
    elemMatch (f + 1) e w a m =
      if elemOkAt w e (anchorPos a) = true then .ok (1, m) else .error .matchFailed := by
  have hgi : getIndex w a =
      (if 0 ≤ anchorPos a ∧ anchorPos a < (w.length : Int)
       then .ok (anchorPos a).toNat else .error .matchFailed) := by
    cases a <;> rfl
  cases e with
  | grapheme g =>
      rw [elemMatch]
      show (match getIndex w a with
            | .error er => (.error er : Except MErr (Nat × Cx))
            | .ok idx => if w.getD idx "" = g then .ok (1, m) else .error .matchFailed) = _
      rw [hgi]
      by_cases hb : 0 ≤ anchorPos a ∧ anchorPos a < (w.length : Int)
      · rw [if_pos hb]
        refine if_congr ?_ rfl rfl
        simp only [elemOkAt, Bool.and_eq_true, decide_eq_true_eq]
        constructor
        · intro hc
          exact ⟨⟨hb.1, hb.2⟩, hc⟩
        · rintro ⟨-, hc⟩
          exact hc
      · rw [if_neg hb]
        rw [if_neg]
        simp only [elemOkAt, Bool.and_eq_true, decide_eq_true_eq]
        rintro ⟨⟨h1, h2⟩, -⟩
        exact hb ⟨h1, h2⟩
  | ditto =>
      rw [elemMatch]
      show (match getIndex w a with
            | .error er => (.error er : Except MErr (Nat × Cx))
            | .ok idx =>
                if idx ≠ 0 ∧ w.getD idx "" = w.getD (idx - 1) "" then .ok (1, m)
                else .error .matchFailed) = _
      rw [hgi]
      by_cases hb : 0 ≤ anchorPos a ∧ anchorPos a < (w.length : Int)
      · rw [if_pos hb]
        refine if_congr ?_ rfl rfl
        simp only [elemOkAt, Bool.and_eq_true, decide_eq_true_eq]
        constructor
        · intro hc
          exact ⟨⟨hb.1, hb.2⟩, hc⟩
        · rintro ⟨-, hc⟩
          exact hc
      · rw [if_neg hb]
        rw [if_neg]
        simp only [elemOkAt, Bool.and_eq_true, decide_eq_true_eq]
        rintro ⟨⟨h1, h2⟩, -⟩
        exact hb ⟨h1, h2⟩
  | category cat sub =>
      cases sub with
      | none =>
          rw [elemMatch]
          show (match getIndex w a with
                | .error er => (.error er : Except MErr (Nat × Cx))
                | .ok idx =>
                    if w.getD idx "" ∈ cat then .ok (1, m) else .error .matchFailed) = _
          rw [hgi]
          by_cases hb : 0 ≤ anchorPos a ∧ anchorPos a < (w.length : Int)
          · rw [if_pos hb]
            refine if_congr ?_ rfl rfl
            simp only [elemOkAt, Bool.and_eq_true, decide_eq_true_eq]
            constructor
            · intro hc
              exact ⟨⟨hb.1, hb.2⟩, hc⟩
            · rintro ⟨-, hc⟩
              exact hc
          · rw [if_neg hb]
            rw [if_neg]
            simp only [elemOkAt, Bool.and_eq_true, decide_eq_true_eq]
            rintro ⟨⟨h1, h2⟩, -⟩
            exact hb ⟨h1, h2⟩
      | some sb => simp [Elem.isRigidFlat] at hr
  | wildcard g ext => simp [Elem.isRigidFlat] at hr
  | repetition p n => simp [Elem.isRigidFlat] at hr
  | wildcardRep p g => simp [Elem.isRigidFlat] at hr
  | optional p g => simp [Elem.isRigidFlat] at hr
  | sylBreak => simp [Elem.isRigidFlat] at hr
  | comparison op v p => simp [Elem.isRigidFlat] at hr
  | targetRef d => simp [Elem.isRigidFlat] at hr

/-- The bounds part of `elemOkAt`. -/
theorem elemOkAt_bounds (w : Word) (e : Elem) (q : Int) (h : elemOkAt w e q = true) :
    0 ≤ q ∧ q < (w.length : Int) := by
  unfold elemOkAt at h
  rw [Bool.and_eq_true, Bool.and_eq_true] at h
  exact ⟨of_decide_eq_true h.1.1, of_decide_eq_true h.1.2⟩

/-- Closed form of the forward element loop on a non-empty rigid pattern:
it succeeds exactly when the anchor is non-negative and every element
matches at its consecutive position, consuming one phone per element and
leaving the map untouched. -/
theorem patLoopF_rigid (w : Word) :
    ∀ (els : List Elem) (e : Elem) (f : Nat) (i : Int) (len : Nat) (m : Cx),
    (e :: els).all Elem.isRigidFlat = true → (e :: els).length + 1 ≤ f →
    patLoopF f (e :: els) w i len m =
      if 0 ≤ i ∧ flatOk w (e :: els) (i + len) = true
      then .ok (len + (e :: els).length, m) else .error .matchFailed := by
  intro els
  induction els with
  | nil =>
      intro e f i len m hr hf
      obtain ⟨f₀, rfl⟩ : ∃ f₀, f = f₀ + 1 := ⟨f - 1, by omega⟩
      have hf₀ : 1 ≤ f₀ := by simp at hf; omega
      obtain ⟨f₁, rfl⟩ : ∃ f₁, f₀ = f₁ + 1 := ⟨f₀ - 1, by omega⟩
      have hre : e.isRigidFlat = true := by simpa using hr
      have hmp : e.hasMatchPattern = false := isRigidFlat_not_hasMatchPattern e hre
      show mrun w (f₁ + 1 + 1) (.loopF [e] i len m) = _
      rw [mrun]
      show (match advance w len (.fromStart i) with
            | .error er => (.error er : Except MErr (Nat × Cx))
            | .ok a' =>
                if e.hasMatchPattern then
                  match mrun w (f₁ + 1) (.mp e [] a' m) with
                  | .error er => .error er
                  | .ok (l2, m') => .ok (len + l2, m')
                else
                  match mrun w (f₁ + 1) (.elemM e a' m) with
                  | .error er => .error er
                  | .ok (l1, m') => mrun w (f₁ + 1) (.loopF [] i (len + l1) m')) = _
      rw [advance]
      by_cases hadv : 0 ≤ i ∧ i ≤ (w.length : Int) - len
      · rw [if_pos hadv]
        simp only [hmp, Bool.false_eq_true, if_false]
        have he : mrun w (f₁ + 1) (.elemM e (.fromStart (i + len)) m)
            = if elemOkAt w e (i + len) = true then .ok (1, m)
              else .error .matchFailed := elemMatch_rigid f₁ e w (.fromStart (i + len)) m hre
        rw [he]
        by_cases hok : elemOkAt w e (i + len) = true
        · rw [if_pos hok]
          show mrun w (f₁ + 1) (.loopF [] i (len + 1) m) = _
          rw [mrun]
          rw [if_pos ⟨hadv.1, by simp [flatOk, hok]⟩]
          rfl
        · rw [if_neg hok]
          rw [if_neg]
          rintro ⟨h0, hflat⟩
          rw [flatOk, Bool.and_eq_true] at hflat
          exact hok hflat.1
      · rw [if_neg hadv]
        rw [if_neg]
        rintro ⟨h0, hflat⟩
        rw [flatOk, Bool.and_eq_true] at hflat
        have hb := elemOkAt_bounds w e (i + len) hflat.1
        exact hadv ⟨h0, by omega⟩
  | cons e2 els2 ih =>
      intro e f i len m hr hf
      obtain ⟨f₀, rfl⟩ : ∃ f₀, f = f₀ + 1 := ⟨f - 1, by omega⟩
      have hr' := hr
      rw [List.all_cons, Bool.and_eq_true] at hr'
      have hre : e.isRigidFlat = true := hr'.1
      have hr2 : (e2 :: els2).all Elem.isRigidFlat = true := hr'.2
      have hf2 : (e2 :: els2).length + 1 ≤ f₀ := by
        simp only [List.length_cons] at hf ⊢
        omega
      have hf₀ : 1 ≤ f₀ := by simp only [List.length_cons] at hf; omega
      obtain ⟨f₁, rfl⟩ : ∃ f₁, f₀ = f₁ + 1 := ⟨f₀ - 1, by omega⟩
      have hmp : e.hasMatchPattern = false := isRigidFlat_not_hasMatchPattern e hre
      show mrun w (f₁ + 1 + 1) (.loopF (e :: e2 :: els2) i len m) = _
      rw [mrun]
      show (match advance w len (.fromStart i) with
            | .error er => (.error er : Except MErr (Nat × Cx))
            | .ok a' =>
                if e.hasMatchPattern then
                  match mrun w (f₁ + 1) (.mp e (e2 :: els2) a' m) with
                  | .error er => .error er
                  | .ok (l2, m') => .ok (len + l2, m')
                else
                  match mrun w (f₁ + 1) (.elemM e a' m) with
                  | .error er => .error er
                  | .ok (l1, m') => mrun w (f₁ + 1) (.loopF (e2 :: els2) i (len + l1) m')) = _
      rw [advance]
      by_cases hadv : 0 ≤ i ∧ i ≤ (w.length : Int) - len
      · rw [if_pos hadv]
        simp only [hmp, Bool.false_eq_true, if_false]
        have he : mrun w (f₁ + 1) (.elemM e (.fromStart (i + len)) m)
            = if elemOkAt w e (i + len) = true then .ok (1, m)
              else .error .matchFailed := elemMatch_rigid f₁ e w (.fromStart (i + len)) m hre
        rw [he]
        by_cases hok : elemOkAt w e (i + len) = true
        · rw [if_pos hok]
          have hrec : patLoopF (f₁ + 1) (e2 :: els2) w i (len + 1) m
              = if 0 ≤ i ∧ flatOk w (e2 :: els2) (i + (len + 1)) = true
                then .ok ((len + 1) + (e2 :: els2).length, m) else .error .matchFailed :=
            ih e2 (f₁ + 1) i (len + 1) m hr2 hf2
          show patLoopF (f₁ + 1) (e2 :: els2) w i (len + 1) m = _
          rw [hrec]
          rw [show i + ((len : Int) + 1) = (i + len) + 1 from by ring]
          refine if_congr ?_ (congrArg (fun n => Except.ok (n, m)) (by
            simp only [List.length_cons]
            omega)) rfl
          constructor
          · rintro ⟨h0, hflat⟩
            exact ⟨h0, by rw [flatOk, Bool.and_eq_true]; exact ⟨hok, hflat⟩⟩
          · rintro ⟨h0, hflat⟩
            rw [flatOk, Bool.and_eq_true] at hflat
            exact ⟨h0, hflat.2⟩
        · rw [if_neg hok]
          rw [if_neg]
          rintro ⟨h0, hflat⟩
          rw [flatOk, Bool.and_eq_true] at hflat
          exact hok hflat.1
      · rw [if_neg hadv]
        rw [if_neg]
        rintro ⟨h0, hflat⟩
        rw [flatOk, Bool.and_eq_true] at hflat
        have hb := elemOkAt_bounds w e (i + len) hflat.1
        exact hadv ⟨h0, by omega⟩

/-- `flatOk` over an append splits at the boundary. -/
theorem flatOk_append (w : Word) :
    ∀ (l1 l2 : List Elem) (q : Int),
    flatOk w (l1 ++ l2) q = (flatOk w l1 q && flatOk w l2 (q + l1.length)) := by
  intro l1
  induction l1 with
  | nil => intro l2 q; simp [flatOk]
  | cons e l1' ih =>
      intro l2 q
      rw [List.cons_append, flatOk, flatOk, ih l2 (q + 1), Bool.and_assoc]
      have : q + 1 + (l1'.length : Int) = q + ((l1'.length : Nat) + 1 : Nat) := by
        push_cast
        ring
      rw [this]
      simp only [List.length_cons]

/-- Closed form of the backward element loop on a non-empty rigid pattern
(the loop receives the reversed element list): it succeeds exactly when
the stop anchor is within the word and every element matches at its
consecutive position ending just before the anchor. -/
theorem patLoopR_rigid (w : Word) :
    ∀ (els : List Elem) (f : Nat) (j : Int) (len : Nat) (m : Cx),
    els ≠ [] → els.all Elem.isRigidFlat = true → els.length + 1 ≤ f →
    patLoopR f els.reverse w j len m =
      if j ≤ (w.length : Int) ∧ flatOk w els (j - len - els.length) = true
      then .ok (len + els.length, m) else .error .matchFailed := by
  intro els
  induction els using List.reverseRecOn with
  | nil => intro f j len m hne hr hf; exact absurd rfl hne
  | append_singleton l x ih =>
      intro f j len m hne hr hf
      rw [List.all_append] at hr
      rw [Bool.and_eq_true] at hr
      have hrx : x.isRigidFlat = true := by simpa using hr.2
      have hrl : l.all Elem.isRigidFlat = true := hr.1
      have hmp : x.hasMatchPattern = false := isRigidFlat_not_hasMatchPattern x hrx
      obtain ⟨f₀, rfl⟩ : ∃ f₀, f = f₀ + 1 := ⟨f - 1, by
        simp only [List.length_append, List.length_singleton] at hf
        omega⟩
      have hf₀ : 1 ≤ f₀ := by
        simp only [List.length_append, List.length_singleton] at hf
        omega
      obtain ⟨f₁, rfl⟩ : ∃ f₁, f₀ = f₁ + 1 := ⟨f₀ - 1, by omega⟩
      have hrev : (l ++ [x]).reverse = x :: l.reverse := by simp
      rw [hrev]
      show mrun w (f₁ + 1 + 1) (.loopR (x :: l.reverse) j len m) = _
      rw [mrun]
      show (match advance w len (.fromStop j) with
            | .error er => (.error er : Except MErr (Nat × Cx))
            | .ok a' =>
                if x.hasMatchPattern then
                  match mrun w (f₁ + 1) (.mp x l.reverse.reverse a' m) with
                  | .error er => .error er
                  | .ok (l2, m') => .ok (len + l2, m')
                else
                  match mrun w (f₁ + 1) (.elemM x a' m) with
                  | .error er => .error er
                  | .ok (l1, m') => mrun w (f₁ + 1) (.loopR l.reverse j (len + l1) m')) = _
      rw [advance]
      have hq0 : j - len - ((l ++ [x]).length : Int) + (l.length : Int) = j - len - 1 := by
        simp only [List.length_append, List.length_singleton]
        push_cast
        ring
      by_cases hadv : (len : Int) ≤ j ∧ j ≤ (w.length : Int)
      · rw [if_pos hadv]
        simp only [hmp, Bool.false_eq_true, if_false]
        have he : mrun w (f₁ + 1) (.elemM x (.fromStop (j - len)) m)
            = if elemOkAt w x (anchorPos (.fromStop (j - len))) = true then .ok (1, m)
              else .error .matchFailed := elemMatch_rigid f₁ x w (.fromStop (j - len)) m hrx
        rw [he]
        have hpos : anchorPos (.fromStop (j - len)) = j - (len : Int) - 1 := rfl
        rw [hpos]
        by_cases hok : elemOkAt w x (j - (len : Int) - 1) = true
        · rw [if_pos hok]
          show mrun w (f₁ + 1) (.loopR l.reverse j (len + 1) m) = _
          by_cases hl : l = []
          · subst hl
            rw [show (([] : List Elem)).reverse = ([] : List Elem) from rfl]
            rw [mrun]
            have hfl1 : flatOk w ([] ++ [x]) (j - len - ((([] : List Elem) ++ [x]).length : Int))
                = true := by
              simp only [List.nil_append, List.length_singleton, Nat.cast_one, flatOk,
                Bool.and_true]
              exact hok
            rw [if_pos ⟨hadv.2, hfl1⟩]
            rfl
          · have hfl : l.length + 1 ≤ f₁ + 1 := by
              simp only [List.length_append, List.length_singleton] at hf
              omega
            have ihr := ih (f₁ + 1) j (len + 1) m hl hrl hfl
            show patLoopR (f₁ + 1) l.reverse w j (len + 1) m = _
            rw [ihr, flatOk_append]
            have heqp : j - (((len + 1 : Nat)) : Int) - (l.length : Int)
                = j - len - (((l ++ [x]).length : Nat) : Int) := by
              simp only [List.length_append, List.length_singleton]
              push_cast
              ring
            refine if_congr ?_ (congrArg (fun n => Except.ok (n, m)) (by
              simp only [List.length_append, List.length_singleton]
              omega)) rfl
            constructor
            · rintro ⟨hjw, hfl2⟩
              refine ⟨hjw, ?_⟩
              rw [Bool.and_eq_true]
              refine ⟨by rw [← heqp]; exact hfl2, ?_⟩
              rw [hq0]
              simp only [flatOk, Bool.and_true]
              exact hok
            · rintro ⟨hjw, hfl2⟩
              rw [Bool.and_eq_true] at hfl2
              exact ⟨hjw, by rw [heqp]; exact hfl2.1⟩
        · rw [if_neg hok]
          rw [if_neg]
          rintro ⟨hjw, hflat⟩
          rw [flatOk_append, Bool.and_eq_true] at hflat
          have h1 := hflat.2
          rw [hq0] at h1
          rw [flatOk, Bool.and_eq_true] at h1
          exact hok h1.1
      · rw [if_neg hadv]
        rw [if_neg]
        rintro ⟨hjw, hflat⟩
        rw [flatOk_append, Bool.and_eq_true] at hflat
        have h1 := hflat.2
        rw [hq0] at h1
        rw [flatOk, Bool.and_eq_true] at h1
        have hb := elemOkAt_bounds w x (j - len - 1) h1.1
        exact hadv ⟨by omega, hjw⟩

/-- A non-empty rigid pattern that matches from `q` lies within the word. -/
theorem flatOk_bounds (w : Word) :
    ∀ (els : List Elem) (q : Int), els ≠ [] → flatOk w els q = true →
    0 ≤ q ∧ q + (els.length : Int) ≤ (w.length : Int) := by
  intro els
  induction els with
  | nil => intro q hne _; exact absurd rfl hne
  | cons e rest ih =>
      intro q _ hflat
      rw [flatOk, Bool.and_eq_true] at hflat
      have hb := elemOkAt_bounds w e q hflat.1
      cases rest with
      | nil =>
          simp only [List.length_cons, List.length_nil]
          push_cast
          omega
      | cons e2 rest2 =>
          have := ih (q + 1) (by simp) hflat.2
          simp only [List.length_cons] at this ⊢
          push_cast at this ⊢
          omega

/-- Characterisation of a forward-anchored match of a non-empty rigid
pattern. -/
theorem patternMatch_rigid_fwd (f₀ : Nat) (e : Elem) (els : List Elem) (w : Word)
    (i : Int) (m : Cx) (s : Slice) (m' : Cx)
    (hr : (e :: els).all Elem.isRigidFlat = true)
    (hf : (e :: els).length + 1 ≤ f₀) :
    patternMatch (f₀ + 1) (e :: els) w (.fromStart i) m = .ok (some s, m') ↔
      (0 ≤ i ∧ flatOk w (e :: els) i = true ∧
        s = ⟨i, i + ((e :: els).length : Int)⟩ ∧ m' = m) := by
  have hcl := patLoopF_rigid w els e f₀ i 0 m hr hf
  rw [show i + ((0 : Nat) : Int) = i from by simp] at hcl
  have hx : patMatchAux (f₀ + 1) (e :: els) w (.fromStart i) m
      = patLoopF f₀ (e :: els) w i 0 m := rfl
  rw [patternMatch, hx, hcl]
  by_cases hc : 0 ≤ i ∧ flatOk w (e :: els) i = true
  · rw [if_pos hc]
    simp only [Except.ok.injEq, Prod.mk.injEq, Option.some.injEq]
    constructor
    · rintro ⟨hs, hm⟩
      exact ⟨hc.1, hc.2, by rw [← hs]; norm_num, hm.symm⟩
    · rintro ⟨-, -, hs, hm⟩
      exact ⟨by rw [hs]; norm_num, hm.symm⟩
  · rw [if_neg hc]
    simp only [Except.ok.injEq, Prod.mk.injEq]
    constructor
    · rintro ⟨hs, -⟩
      cases hs
    · rintro ⟨h1, h2, -, -⟩
      exact absurd ⟨h1, h2⟩ hc

/-- Characterisation of a backward-anchored match of a non-empty rigid
pattern. -/
theorem patternMatch_rigid_bwd (f₀ : Nat) (e : Elem) (els : List Elem) (w : Word)
    (j : Int) (m : Cx) (s : Slice) (m' : Cx)
    (hr : (e :: els).all Elem.isRigidFlat = true)
    (hf : (e :: els).length + 1 ≤ f₀) :
    patternMatch (f₀ + 1) (e :: els) w (.fromStop j) m = .ok (some s, m') ↔
      (j ≤ (w.length : Int) ∧
        flatOk w (e :: els) (j - ((e :: els).length : Int)) = true ∧
        s = ⟨j - ((e :: els).length : Int), j⟩ ∧ m' = m) := by
  have hcl := patLoopR_rigid w (e :: els) f₀ j 0 m (by simp) hr hf
  rw [show j - ((0 : Nat) : Int) - (((e :: els).length : Nat) : Int)
      = j - ((e :: els).length : Int) from by push_cast; ring] at hcl
  have hx : patMatchAux (f₀ + 1) (e :: els) w (.fromStop j) m
      = patLoopR f₀ (e :: els).reverse w j 0 m := rfl
  rw [patternMatch, hx, hcl]
  by_cases hc : j ≤ (w.length : Int) ∧
      flatOk w (e :: els) (j - ((e :: els).length : Int)) = true
  · rw [if_pos hc]
    simp only [Except.ok.injEq, Prod.mk.injEq, Option.some.injEq]
    constructor
    · rintro ⟨hs, hm⟩
      exact ⟨hc.1, hc.2, by rw [← hs]; norm_num, hm.symm⟩
    · rintro ⟨-, -, hs, hm⟩
      exact ⟨by rw [hs]; norm_num, hm.symm⟩
  · rw [if_neg hc]
    simp only [Except.ok.injEq, Prod.mk.injEq]
    constructor
    · rintro ⟨hs, -⟩
      cases hs
    · rintro ⟨h1, h2, -, -⟩
      exact absurd ⟨h1, h2⟩ hc

/-- Counterexample for C8 as stated.  First: the greedy wildcard pattern
`*` on the word `[#,a,a,#]` — with `stop=2` it succeeds with length 1, but
with `start=1` it succeeds with length 2, so "`start=i` succeeds with
length L iff `stop=i+L` succeeds with length L" fails at `i=1, L=1`.
Second: the pattern `[a,b]₁[c,c]₁` on the word `[b,c]` — forward it
succeeds (binding subscript 1 to position 1), backward from `stop=2` it
fails (the right occurrence binds position 0, which the left occurrence
then contradicts), so the claimed equivalence and catixes agreement also
fail for subscripted categories. -/
theorem anchored_symmetry_cex :
    patternMatch 20 [.wildcard true false] ["#", "a", "a", "#"] (.fromStop 2) []
        = .ok (some ⟨1, 2⟩, []) ∧
    patternMatch 20 [.wildcard true false] ["#", "a", "a", "#"] (.fromStart 1) []
        = .ok (some ⟨1, 3⟩, []) ∧
    ((⟨1, 3⟩ : Slice) = ⟨1, 2⟩ → False) ∧
    patternMatch 20 [.category ["a", "b"] (some 1), .category ["c", "c"] (some 1)]
        ["b", "c"] (.fromStart 0) [] = .ok (some ⟨0, 2⟩, [(1, 1)]) ∧
    patternMatch 20 [.category ["a", "b"] (some 1), .category ["c", "c"] (some 1)]
        ["b", "c"] (.fromStop 2) [] = .ok (none, []) := by
  exact ⟨rfl, rfl, by decide, rfl, rfl⟩

/-- Claim C8 (corrected): the anchored symmetry holds for patterns built
from rigid single-phone elements (`Grapheme`, `Ditto`, unsubscripted
`Category`): `match(w, start=i)` succeeds with range `[i, i+L)` and map
`m'` iff `match(w, stop=i+L)` does, in which case `L` is the pattern
length and the catixes map is returned unchanged.  (Greedy or lazy
elements and subscripted categories break the symmetry — see the
counterexample.) -/
theorem anchored_symmetry_rigid (f : Nat) (p : List Elem) (w : Word) (i : Int)
    (L : Nat) (m m' : Cx) (hr : p.all Elem.isRigidFlat = true)
    (hf : p.length + 2 ≤ f) :
    (patternMatch f p w (.fromStart i) m = .ok (some ⟨i, i + L⟩, m') ↔
      patternMatch f p w (.fromStop (i + L)) m = .ok (some ⟨i, i + L⟩, m')) ∧
    (patternMatch f p w (.fromStart i) m = .ok (some ⟨i, i + L⟩, m') →
      m' = m ∧ L = p.length) := by
  obtain ⟨f₀, rfl⟩ : ∃ f₀, f = f₀ + 1 := ⟨f - 1, by omega⟩
  cases p with
  | nil =>
      obtain ⟨f₁, rfl⟩ : ∃ f₁, f₀ = f₁ + 1 := ⟨f₀ - 1, by simp at hf; omega⟩
      have hfwd : patternMatch (f₁ + 1 + 1) [] w (.fromStart i) m
          = .ok (some ⟨i, i⟩, m) :=
        (emptyPattern_matches_any_anchor f₁ w i m).1
      have hbwd : patternMatch (f₁ + 1 + 1) [] w (.fromStop (i + L)) m
          = .ok (some ⟨i + L, i + L⟩, m) :=
        (emptyPattern_matches_any_anchor f₁ w (i + L) m).2
      rw [hfwd, hbwd]
      simp only [Except.ok.injEq, Prod.mk.injEq, Option.some.injEq, Slice.mk.injEq]
      constructor
      · constructor
        · rintro ⟨⟨h1, h2⟩, h3⟩
          refine ⟨⟨?_, trivial⟩, h3⟩
          omega
        · rintro ⟨⟨h1, h2⟩, h3⟩
          refine ⟨⟨trivial, ?_⟩, h3⟩
          omega
      · rintro ⟨⟨h1, h2⟩, h3⟩
        refine ⟨h3.symm, ?_⟩
        simp only [List.length_nil]
        omega
  | cons e els =>
      have hf' : (e :: els).length + 1 ≤ f₀ := by
        simp only [List.length_cons] at hf ⊢
        omega
      rw [patternMatch_rigid_fwd f₀ e els w i m ⟨i, i + L⟩ m' hr hf',
          patternMatch_rigid_bwd f₀ e els w (i + L) m ⟨i, i + L⟩ m' hr hf']
      constructor
      · constructor
        · rintro ⟨h0, hflat, hs, hm⟩
          rw [Slice.mk.injEq] at hs
          have hL : (L : Int) = ((e :: els).length : Int) := by omega
          have hbnd := flatOk_bounds w (e :: els) i (by simp) hflat
          refine ⟨by omega, ?_, ?_, hm⟩
          · rw [show i + (L : Int) - ((e :: els).length : Int) = i from by omega]
            exact hflat
          · rw [Slice.mk.injEq]
            constructor
            · omega
            · rfl
        · rintro ⟨hjw, hflat, hs, hm⟩
          rw [Slice.mk.injEq] at hs
          have hL : (L : Int) = ((e :: els).length : Int) := by omega
          rw [show i + (L : Int) - ((e :: els).length : Int) = i from by omega] at hflat
          have hbnd := flatOk_bounds w (e :: els) i (by simp) hflat
          refine ⟨by omega, hflat, ?_, hm⟩
          rw [Slice.mk.injEq]
          constructor
          · rfl
          · omega
      · rintro ⟨h0, hflat, hs, hm⟩
        rw [Slice.mk.injEq] at hs
        refine ⟨hm, ?_⟩
        have : (i : Int) + L = i + ((e :: els).length : Int) := hs.2
        omega

/-- Witness for C8's theorem: the rigid pattern `ab` on the word
`[#,a,b,#]` at `i = 1`, `L = 2` — both anchorings succeed with the same
range and unchanged map. -/
theorem anchored_symmetry_rigid_witness :
    (patternMatch 6 [.grapheme "a", .grapheme "b"] ["#", "a", "b", "#"]
        (.fromStart 1) [(0, 0)] = .ok (some ⟨1, 3⟩, [(0, 0)]) ↔
      patternMatch 6 [.grapheme "a", .grapheme "b"] ["#", "a", "b", "#"]
        (.fromStop 3) [(0, 0)] = .ok (some ⟨1, 3⟩, [(0, 0)])) ∧
    (patternMatch 6 [.grapheme "a", .grapheme "b"] ["#", "a", "b", "#"]
        (.fromStart 1) [(0, 0)] = .ok (some ⟨1, 3⟩, [(0, 0)]) →
      [(0, 0)] = [(0, 0)] ∧ 2 = [Elem.grapheme "a", Elem.grapheme "b"].length) := by
  have h := anchored_symmetry_rigid 6 [.grapheme "a", .grapheme "b"]
    ["#", "a", "b", "#"] 1 2 [(0, 0)] [(0, 0)] (by decide) (by decide)
  exact ⟨by rw [show ((1 : Int) + (2 : Nat)) = 3 from by norm_num] at h; exact h.1,
    fun hx => ⟨rfl, by decide⟩⟩

/-- Inserting into a key-sorted list neither adds nor removes members. -/
theorem mem_insKeyed (key : α → Int × Int) (x y : α) (l : List α) :
    x ∈ insKeyed key y l ↔ x = y ∨ x ∈ l := by
  induction l with
  | nil => simp [insKeyed]
  | cons z zs ih =>
      rw [insKeyed]
      by_cases hc : keyLt (key y) (key z) = true
      · simp [hc]
      · simp only [Bool.not_eq_true] at hc
        simp [hc, ih]
        tauto

/-- The stable key sort permutes its input: membership is preserved. -/
theorem mem_sortKeyed (key : α → Int × Int) (x : α) (l : List α) :
    x ∈ sortKeyed key l ↔ x ∈ l := by
  induction l with
  | nil => simp [sortKeyed]
  | cons y ys ih =>
      rw [sortKeyed, mem_insKeyed, ih]
      simp

/-- Membership in the scan of `Target.match`: exactly the non-`None`,
non-`slice(0,0)` anchored matches at the scanned start positions. -/
theorem scanStarts_mem (f : Nat) (pat : List Elem) (w : Word) :
    ∀ (n i : Nat) (ms : List (Slice × Cx)),
      scanStarts f pat w i n = .ok ms →
      ∀ s cx, ((s, cx) ∈ ms ↔ ∃ j : Nat, i ≤ j ∧ j < i + n ∧
        patternMatch f pat w (.fromStart (j : Int)) [] = .ok (some s, cx) ∧
        s ≠ ⟨0, 0⟩) := by
  intro n
  induction n with
  | zero =>
      intro i ms h s cx
      rw [scanStarts] at h
      injection h with h
      subst h
      constructor
      · intro hmem
        simp at hmem
      · rintro ⟨j, h1, h2, -, -⟩
        omega
  | succ n ih =>
      intro i ms h s cx
      rw [scanStarts] at h
      cases hp : patternMatch f pat w (.fromStart (i : Int)) [] with
      | error er => simp [hp] at h
      | ok r =>
          obtain ⟨ro, rcx⟩ := r
          simp only [hp] at h
          cases hr : scanStarts f pat w (i + 1) n with
          | error er => simp [hr] at h
          | ok rest =>
              simp only [hr] at h
              injection h with h
              subst h
              have ihr := ih (i + 1) rest hr s cx
              constructor
              · intro hmem
                rw [List.mem_append] at hmem
                cases hmem with
                | inr hm =>
                    obtain ⟨j, h1, h2, h3, h4⟩ := ihr.mp hm
                    exact ⟨j, by omega, by omega, h3, h4⟩
                | inl hm =>
                    cases ro with
                    | none => simp at hm
                    | some sl =>
                        by_cases hsl : sl = (⟨0, 0⟩ : Slice)
                        · simp [hsl] at hm
                        · simp [hsl] at hm
                          obtain ⟨hs, hcx⟩ := hm
                          subst hs
                          subst hcx
                          exact ⟨i, le_refl i, by omega, hp, hsl⟩
              · rintro ⟨j, h1, h2, h3, h4⟩
                rw [List.mem_append]
                by_cases hij : j = i
                · subst hij
                  have he := hp.symm.trans h3
                  injection he with he
                  rw [Prod.mk.injEq] at he
                  obtain ⟨rfl, rfl⟩ := he
                  left
                  simp [h4]
                · right
                  exact ihr.mpr ⟨j, by omega, by omega, h3, h4⟩

/-- `Target.match` can only fail with a lifted matcher exception. -/
theorem targetMatch_error_merr (f : Nat) (t : Target) (w : Word) (er : RErr)
    (h : targetMatch f t w = .error er) : ∃ me, er = .merr me := by
  rw [targetMatch] at h
  cases hs : scanStarts f t.pattern w 0 w.length with
  | error me =>
      simp only [hs, liftME] at h
      injection h with h
      exact ⟨me, h.symm⟩
  | ok ms =>
      simp only [hs, liftME] at h
      cases h

/-- The collection loop can only fail with a lifted matcher exception. -/
theorem collectTargets_error_merr (f : Nat) (w : Word) :
    ∀ (ts : List Target) (k : Nat) (er : RErr),
      collectTargets f w ts k = .error er → ∃ me, er = .merr me := by
  intro ts
  induction ts with
  | nil =>
      intro k er h
      rw [collectTargets] at h
      cases h
  | cons t ts ih =>
      intro k er h
      rw [collectTargets] at h
      cases ht : targetMatch f t w with
      | error er2 =>
          simp only [ht] at h
          injection h with h
          subst h
          exact targetMatch_error_merr f t w er2 ht
      | ok ms =>
          simp only [ht] at h
          cases hr : collectTargets f w ts (k + 1) with
          | error er2 =>
              simp only [hr] at h
              injection h with h
              subst h
              exact ih (k + 1) er2 hr
          | ok r => simp [hr] at h

/-- The collection loop yields the empty list exactly when every target
has no matches. -/
theorem collectTargets_nil_iff (f : Nat) (w : Word) :
    ∀ (ts : List Target) (k : Nat),
      collectTargets f w ts k = .ok [] ↔ ∀ t ∈ ts, targetMatch f t w = .ok [] := by
  intro ts
  induction ts with
  | nil => intro k; simp [collectTargets]
  | cons t ts ih =>
      intro k
      rw [collectTargets]
      constructor
      · intro h
        cases ht : targetMatch f t w with
        | error er2 => simp [ht] at h
        | ok ms =>
            simp only [ht] at h
            cases hr : collectTargets f w ts (k + 1) with
            | error er2 => simp [hr] at h
            | ok r =>
                simp only [hr] at h
                injection h with h
                have hms : ms = [] := by
                  cases ms with
                  | nil => rfl
                  | cons a as => simp at h
                have hrr : r = [] := by
                  subst hms
                  simpa using h
                intro u hu
                rcases List.mem_cons.mp hu with rfl | hmem
                · exact hms ▸ ht
                · exact (ih (k + 1)).mp (hrr ▸ hr) u hmem
      · intro h
        have ht : targetMatch f t w = .ok [] := h t (List.mem_cons_self t ts)
        have hr : collectTargets f w ts (k + 1) = .ok [] :=
          (ih (k + 1)).mpr (fun u hu => h u (List.mem_cons_of_mem t hu))
        rw [ht, hr]
        rfl

/-- Membership in the collection loop: an entry tagged `k` is a match of
the target at offset `k - k0` in the remaining target list. -/
theorem collectTargets_mem (f : Nat) (w : Word) :
    ∀ (ts : List Target) (k0 : Nat) (res : List TEntry),
      collectTargets f w ts k0 = .ok res →
      ∀ s cx k, ((s, cx, k) ∈ res ↔ ∃ j t ms,
        ts[j]? = some t ∧ k = k0 + j ∧ targetMatch f t w = .ok ms ∧
        (s, cx) ∈ ms) := by
  intro ts
  induction ts with
  | nil =>
      intro k0 res h s cx k
      rw [collectTargets] at h
      injection h with h
      subst h
      simp
  | cons t ts ih =>
      intro k0 res h s cx k
      rw [collectTargets] at h
      cases ht : targetMatch f t w with
      | error er => simp [ht] at h
      | ok ms =>
          simp only [ht] at h
          cases hr : collectTargets f w ts (k0 + 1) with
          | error er => simp [hr] at h
          | ok r =>
              simp only [hr] at h
              injection h with h
              subst h
              rw [List.mem_append]
              constructor
              · intro hmem
                cases hmem with
                | inl hm =>
                    rw [List.mem_map] at hm
                    obtain ⟨⟨s2, cx2⟩, hsm, heq⟩ := hm
                    simp only [Prod.mk.injEq] at heq
                    obtain ⟨rfl, rfl, hk⟩ := heq
                    exact ⟨0, t, ms, by simp, by omega, ht, hsm⟩
                | inr hm =>
                    obtain ⟨j, t2, ms2, hj, hk, htm, hmem2⟩ :=
                      (ih (k0 + 1) r hr s cx k).mp hm
                    exact ⟨j + 1, t2, ms2, by simpa using hj, by omega, htm, hmem2⟩
              · rintro ⟨j, t2, ms2, hj, hk, htm, hmem2⟩
                cases j with
                | zero =>
                    simp only [List.getElem?_cons_zero, Option.some.injEq] at hj
                    subst hj
                    left
                    rw [ht] at htm
                    injection htm with htm
                    subst htm
                    rw [List.mem_map]
                    have hkk : k0 = k := by omega
                    subst hkk
                    exact ⟨(s, cx), hmem2, rfl⟩
                | succ j =>
                    right
                    exact (ih (k0 + 1) r hr s cx k).mpr
                      ⟨j, t2, ms2, by simpa using hj, by omega, htm, hmem2⟩

/-- The index filter of `Target.match` only selects enumerated matches. -/
theorem indicesFilter_subset (ixs : List Int) (ms : List (Slice × Cx))
    (x : Slice × Cx) (h : x ∈ indicesFilter ixs ms) : x ∈ ms := by
  rw [indicesFilter, List.mem_filterMap] at h
  obtain ⟨ix, -, hx⟩ := h
  by_cases hb : -(ms.length : Int) ≤ ix ∧ ix < (ms.length : Int)
  · rw [if_pos hb] at hx
    injection hx with hx
    subst hx
    have hlt : (if ix < 0 then ix + (ms.length : Int) else ix).toNat < ms.length := by
      rcases hb with ⟨hb1, hb2⟩
      by_cases hneg : ix < 0
      · rw [if_pos hneg]
        omega
      · rw [if_neg hneg]
        omega
    rw [List.getD_eq_getElem?_getD, List.getElem?_eq_getElem hlt, Option.getD_some]
    exact List.getElem_mem hlt
  · rw [if_neg hb] at hx
    cases hx

/-- Claim C4: target finding enumerates, for each target pattern,
`pattern.match(word, start=i)` at every `i` in `[0, len(word))`, keeps only
matches that are neither `None` nor `slice(0, 0)`, applies the target index
filter (which drops out-of-range positive and negative indices and can only
select enumerated matches), tags each kept match with its target index, and
raises `NoTargetsFound` exactly when no match remains across all targets. -/
theorem target_finding_characterization (f : Nat) (r : Rule) (w : Word) :
    (getTargets f r w = .error .noTargetsFound ↔
      ∀ t ∈ r.targets, targetMatch f t w = .ok []) ∧
    (∀ (t : Target) (ms : List (Slice × Cx)), t.indices = [] →
      targetMatch f t w = .ok ms →
      ∀ s cx, ((s, cx) ∈ ms ↔ ∃ i : Nat, i < w.length ∧
        patternMatch f t.pattern w (.fromStart (i : Int)) [] = .ok (some s, cx) ∧
        s ≠ ⟨0, 0⟩)) ∧
    (∀ (ixs : List Int) (ms : List (Slice × Cx)) (x : Slice × Cx),
      x ∈ indicesFilter ixs ms → x ∈ ms) ∧
    (∀ ts, getTargets f r w = .ok ts →
      ∀ s cx k, ((s, cx, k) ∈ ts ↔ ∃ t ms, r.targets[k]? = some t ∧
        targetMatch f t w = .ok ms ∧ (s, cx) ∈ ms)) := by
  refine ⟨?_, ?_, ?_, ?_⟩
  · constructor
    · intro h
      rw [getTargets] at h
      cases hc : collectTargets f w r.targets 0 with
      | error er =>
          simp only [hc] at h
          injection h with h
          obtain ⟨me, rfl⟩ := collectTargets_error_merr f w r.targets 0 er hc
          cases h
      | ok all =>
          simp only [hc] at h
          by_cases he : all.isEmpty = true
          · have hall : all = [] := by
              cases all with
              | nil => rfl
              | cons a as => simp at he
            exact (collectTargets_nil_iff f w r.targets 0).mp (hall ▸ hc)
          · rw [if_neg he] at h
            split at h <;> simp at h
    · intro h
      have hc : collectTargets f w r.targets 0 = .ok [] :=
        (collectTargets_nil_iff f w r.targets 0).mpr h
      rw [getTargets, hc]
      rfl
  · intro t ms hix htm s cx
    rw [targetMatch] at htm
    cases hs : scanStarts f t.pattern w 0 w.length with
    | error er => simp [hs, liftME] at htm
    | ok ms0 =>
        simp only [hs, liftME] at htm
        rw [hix] at htm
        simp only [List.isEmpty_nil, if_true] at htm
        injection htm with htm
        subst htm
        rw [scanStarts_mem f t.pattern w w.length 0 ms0 hs s cx]
        constructor
        · rintro ⟨j, h1, h2, h3, h4⟩
          exact ⟨j, by omega, h3, h4⟩
        · rintro ⟨j, h1, h3, h4⟩
          exact ⟨j, by omega, by omega, h3, h4⟩
  · exact fun ixs ms x h => indicesFilter_subset ixs ms x h
  · intro ts hts s cx k
    rw [getTargets] at hts
    cases hc : collectTargets f w r.targets 0 with
    | error er => simp [hc] at hts
    | ok all =>
        simp only [hc] at hts
        by_cases he : all.isEmpty = true
        · rw [if_pos he] at hts
          cases hts
        · rw [if_neg he] at hts
          have hmem : ((s, cx, k) ∈ ts ↔ (s, cx, k) ∈ all) := by
            split at hts <;>
              (injection hts with hts
               subst hts
               exact mem_sortKeyed _ _ all)
          rw [hmem, collectTargets_mem f w r.targets 0 all hc s cx k]
          constructor
          · rintro ⟨j, t, ms, hj, hk, htm, hm⟩
            refine ⟨t, ms, ?_, htm, hm⟩
            rw [show k = j from by omega]
            exact hj
          · rintro ⟨t, ms, hj, htm, hm⟩
            exact ⟨k, t, ms, hj, by omega, htm, hm⟩

/-- Witness for C4: a rule whose only target `z` does not occur in the
word `[a]` yields `NoTargetsFound`, through the theorem's first conjunct;
and through the second conjunct, `(slice(1,2), {})` is among the
matches of the unfiltered target `a` on `[#,a,a,#]`, witnessed by the
anchored match at start `1`. -/
theorem target_finding_characterization_witness :
    getTargets 10 ⟨[⟨[.grapheme "z"], []⟩], [], {}⟩ ["a"]
        = .error .noTargetsFound ∧
    ((⟨1, 2⟩ : Slice), ([] : Cx)) ∈
      [((⟨1, 2⟩ : Slice), ([] : Cx)), ((⟨2, 3⟩ : Slice), ([] : Cx))] := by
  constructor
  · exact (target_finding_characterization 10 ⟨[⟨[.grapheme "z"], []⟩], [], {}⟩
      ["a"]).1.mpr (by
        intro t ht
        simp at ht
        subst ht
        rfl)
  · exact ((target_finding_characterization 10 ⟨[], [], {}⟩
      ["#", "a", "a", "#"]).2.1 ⟨[.grapheme "a"], []⟩
      [(⟨1, 2⟩, []), (⟨2, 3⟩, [])] rfl (by rfl) ⟨1, 2⟩ []).mpr
      ⟨1, by decide, by rfl, by decide⟩

end SCE
